import Mathlib

/-!
Verification of the microfactory workflow runner against its specification.

The definitions below are shallow embeddings of the Rust sources:
vote tallying (`src/tasks/mod.rs`), sample collection (`SampleCollector`),
workflow metrics and step-tree operations (`src/context.rs`), target-path
validation (`validate_target_path`), the scheduler loop of
`FlowRunner::execute` (`src/runner.rs`), and the resume paths of
`AppService` (`src/application/service.rs`) and `ServeState`
(`src/server.rs`).  Machine integers (`usize`) are modelled as `Nat`;
Rust's `usize::saturating_sub` coincides with `Nat` subtraction.
-/

namespace Microfactory

/-! ## Vote tallying (`src/tasks/mod.rs`)

`first_to_ahead_by_k` keeps a `HashMap` of counts over the prefix of votes
seen so far and sorts the `(candidate, count)` pairs by descending count.
We model the set of candidates seen so far as the list of distinct votes in
first-occurrence order (`cands`); the sorted list's first count is the
maximum of all counts and its second count is the maximum after removing
one copy of that maximum (`List.erase`), which is independent of how the
sort breaks ties.  The candidate the code returns is a candidate attaining
the maximal count; whenever the ahead-by-`k` test succeeds with `k ≥ 1`
that candidate is unique, so the hash-order nondeterminism of the source
is invisible and we pick the first such candidate in `cands` order. -/

/-- Distinct candidates of a vote list, in first-occurrence order. -/
def cands : List Nat → List Nat
  | [] => []
  | v :: vs => v :: (cands vs).filter (fun c => c ≠ v)

/-- Maximum of a list of naturals (`0` for the empty list). -/
def maxL (l : List Nat) : Nat := l.foldr max 0

/-- The per-candidate counts over a prefix, in `cands` order. -/
def countVals (p : List Nat) : List Nat := (cands p).map (fun c => p.count c)

/-- The leader's count: maximal count over all candidates seen so far. -/
def leaderCount (p : List Nat) : Nat := maxL (countVals p)

/-- The runner-up count: second entry of the descending sort of the counts,
i.e. the maximum after removing one copy of the maximum. -/
def runnerUpCount (p : List Nat) : Nat :=
  maxL ((countVals p).erase (leaderCount p))

/-- One iteration of the `first_to_ahead_by_k` loop, evaluated on the prefix
`p` of the votes consumed so far (`p` is nonempty at every call site).
Mirrors the body of the `for` loop in the source: with a single candidate,
decide `count ≥ k`; otherwise decide `leader ≥ runner_up + k` and return
the leading candidate. -/
def stepDecision (p : List Nat) (k : Nat) : Option Nat :=
  match cands p with
  | [] => none
  | [c] => if k ≤ p.count c then some c else none
  | _ :: _ :: _ =>
      if runnerUpCount p + k ≤ leaderCount p then
        (cands p).find? (fun c => p.count c = leaderCount p)
      else none

/-- The streaming loop of `first_to_ahead_by_k`: `processed` holds the votes
already consumed, `rest` the votes still to stream. -/
def aheadGo (processed : List Nat) (rest : List Nat) (k : Nat) : Option Nat :=
  match rest with
  | [] => none
  | v :: vs =>
      match stepDecision (processed ++ [v]) k with
      | some c => some c
      | none => aheadGo (processed ++ [v]) vs k

/-- `first_to_ahead_by_k` from `src/tasks/mod.rs`. -/
def first_to_ahead_by_k (votes : List Nat) (k : Nat) : Option Nat :=
  aheadGo [] votes k

/-- The spec's per-candidate qualification (§4.3 of the spec): a candidate
qualifies on a prefix when its count reaches the best other candidate's
count plus `k`; when it is the only candidate this degenerates to
`count ≥ k`, the spec's "trivially `leader ≥ k`" case. -/
def maxOther (p : List Nat) (c : Nat) : Nat :=
  maxL (((cands p).filter (fun d => d ≠ c)).map (fun d => p.count d))

/-- Spec-side qualification test for candidate `c` on prefix `p`. -/
def specQualifies (p : List Nat) (k c : Nat) : Bool :=
  maxOther p c + k ≤ p.count c

/-- Spec-side decision on one prefix: the first qualifying candidate. -/
def specDecision (p : List Nat) (k : Nat) : Option Nat :=
  (cands p).find? (specQualifies p k)

/-- Spec-side streaming loop. -/
def specAheadGo (processed : List Nat) (rest : List Nat) (k : Nat) : Option Nat :=
  match rest with
  | [] => none
  | v :: vs =>
      match specDecision (processed ++ [v]) k with
      | some c => some c
      | none => specAheadGo (processed ++ [v]) vs k

/-- `first_to_ahead_by_k` as the spec words it (§4.3): stream the votes,
return the first candidate whose count reaches the runner-up's plus `k`. -/
def spec_first_to_ahead_by_k (votes : List Nat) (k : Nat) : Option Nat :=
  specAheadGo [] votes k

/-- The recursion of `majority_vote`: `processed` are the consumed votes,
`leader`/`leaderCnt` the running leader and its count.  The counts map of
the source is recovered as `processed.count v + 1` for the vote being
consumed. -/
def majorityGo (processed : List Nat) (leader leaderCnt : Nat) :
    List Nat → Nat
  | [] => leader
  | v :: vs =>
      let entry := processed.count v + 1
      if leaderCnt < entry then majorityGo (processed ++ [v]) v entry vs
      else majorityGo (processed ++ [v]) leader leaderCnt vs

/-- `majority_vote` from `src/tasks/mod.rs`. -/
def majority_vote (votes : List Nat) : Option Nat :=
  match votes with
  | [] => none
  | v0 :: _ => some (majorityGo [] v0 0 votes)

/-- Winner selection shared by `DecompositionVoteTask::run` and
`SolutionVoteTask::run`: ahead-by-`k` (with `k` clamped to `≥ 1`), falling
back to `majority_vote`, defaulting to `0`, clamped to the candidate range. -/
def vote_winner (votes : List Nat) (k : Nat) (candidateCount : Nat) : Nat :=
  let w :=
    match first_to_ahead_by_k votes (max k 1) with
    | some c => c
    | none =>
        match majority_vote votes with
        | some c => c
        | none => 0
  min w (candidateCount - 1)

/-- `vote_counts` from `src/tasks/mod.rs`: the winner's count and the best
count among the other candidate indices `< candidate_count`.  Votes `≥
candidate_count` are ignored by the source's bounds check; counting
equality with an in-range index ignores them automatically. -/
def vote_counts (votes : List Nat) (candidateCount : Nat) (winnerIdx : Nat) :
    Nat × Nat :=
  if candidateCount = 0 then (0, 0)
  else
    let winner := if winnerIdx < candidateCount then votes.count winnerIdx else 0
    let runnerUp :=
      maxL (((List.range candidateCount).filter (fun i => i ≠ winnerIdx)).map
        (fun i => votes.count i))
    (winner, runnerUp)

/-! ### Helper lemmas for the vote tally -/

theorem maxL_nil : maxL [] = 0 := rfl

theorem maxL_cons (x : Nat) (l : List Nat) : maxL (x :: l) = max x (maxL l) := rfl

theorem le_maxL_of_mem {x : Nat} {l : List Nat} (h : x ∈ l) : x ≤ maxL l := by
  induction l with
  | nil => cases h
  | cons y ys ih =>
      rcases List.mem_cons.mp h with rfl | hy
      · exact Nat.le_max_left _ _
      · exact le_trans (ih hy) (Nat.le_max_right _ _)

theorem maxL_le {l : List Nat} {b : Nat} (h : ∀ x ∈ l, x ≤ b) : maxL l ≤ b := by
  induction l with
  | nil => exact Nat.zero_le _
  | cons y ys ih =>
      exact max_le (h y (List.mem_cons_self _ _))
        (ih fun x hx => h x (List.mem_cons_of_mem _ hx))

theorem maxL_mem {l : List Nat} (h : l ≠ []) : maxL l ∈ l := by
  induction l with
  | nil => exact absurd rfl h
  | cons y ys ih =>
      by_cases hys : ys = []
      · subst hys; simp [maxL]
      · rcases max_choice y (maxL ys) with hm | hm
        · rw [maxL_cons, hm]; exact List.mem_cons_self _ _
        · rw [maxL_cons, hm]; exact List.mem_cons_of_mem _ (ih hys)

theorem maxL_append (xs ys : List Nat) :
    maxL (xs ++ ys) = max (maxL xs) (maxL ys) := by
  induction xs with
  | nil => simp [maxL]
  | cons x l ih => simp [maxL_cons, List.cons_append, ih, Nat.max_assoc]

theorem cands_nodup (p : List Nat) : (cands p).Nodup := by
  induction p with
  | nil => exact List.nodup_nil
  | cons v vs ih =>
      refine List.Nodup.cons ?_ (ih.filter _)
      intro hv
      rcases List.mem_filter.mp hv with ⟨-, hne⟩
      simp at hne

theorem mem_cands {c : Nat} {p : List Nat} : c ∈ cands p ↔ c ∈ p := by
  induction p with
  | nil => simp [cands]
  | cons v vs ih =>
      simp only [cands, List.mem_cons, List.mem_filter, ih]
      by_cases hc : c = v <;> simp [hc]

theorem cands_eq_nil {p : List Nat} : cands p = [] ↔ p = [] := by
  cases p with
  | nil => simp [cands]
  | cons v vs => simp [cands]

/-- Decompose a successful `find?` into prefix, witness, and suffix. -/
theorem find?_split {α : Type} {pr : α → Bool} {l : List α} {c : α}
    (h : l.find? pr = some c) :
    ∃ as bs, l = as ++ c :: bs ∧ (∀ a ∈ as, pr a = false) ∧ pr c = true := by
  induction l with
  | nil => simp [List.find?] at h
  | cons x xs ih =>
      by_cases hx : pr x
      · rw [List.find?_cons_of_pos _ hx] at h
        cases h
        exact ⟨[], xs, rfl, by simp, hx⟩
      · rw [List.find?_cons_of_neg _ (by simpa using hx)] at h
        obtain ⟨as, bs, rfl, has, hc⟩ := ih h
        exact ⟨x :: as, bs, rfl, by
          intro a ha
          rcases List.mem_cons.mp ha with rfl | ha
          · simpa using hx
          · exact has a ha, hc⟩

/-- `find?` over a list that starts with a failing prefix finds the first hit. -/
theorem find?_of_split {α : Type} {pr : α → Bool} {as bs : List α} {c : α}
    (has : ∀ a ∈ as, pr a = false) (hc : pr c = true) :
    (as ++ c :: bs).find? pr = some c := by
  induction as with
  | nil => simp [List.find?_cons_of_pos _ hc]
  | cons a as ih =>
      rw [List.cons_append,
        List.find?_cons_of_neg _ (by simp [has a (List.mem_cons_self _ _)])]
      exact ih fun x hx => has x (List.mem_cons_of_mem _ hx)

/-- When `c` is the strict unique maximum among the candidates, the source's
leader count is `c`'s count and the source's runner-up count (maximum after
erasing one copy of the leader count) is the spec's best-other count. -/
theorem unique_max_facts {p : List Nat} {c : Nat} (hc : c ∈ cands p)
    (huniq : ∀ d ∈ cands p, d ≠ c → p.count d < p.count c) :
    leaderCount p = p.count c ∧ runnerUpCount p = maxOther p c := by
  obtain ⟨as, bs, hsplit⟩ := List.append_of_mem hc
  have hnd : (cands p).Nodup := cands_nodup p
  rw [hsplit] at hnd
  have hcas : c ∉ as := by
    intro hmem
    have := List.disjoint_of_nodup_append hnd hmem
    simp at this
  have hcbs : c ∉ bs := by
    have := (List.nodup_append.mp hnd).2.1
    exact (List.nodup_cons.mp this).1
  have hlt_as : ∀ a ∈ as, p.count a < p.count c := by
    intro a ha
    refine huniq a (by rw [hsplit]; exact List.mem_append_left _ ha) ?_
    rintro rfl; exact hcas ha
  have hlt_bs : ∀ b ∈ bs, p.count b < p.count c := by
    intro b hb
    refine huniq b (by
      rw [hsplit]
      exact List.mem_append_right _ (List.mem_cons_of_mem _ hb)) ?_
    rintro rfl; exact hcbs hb
  have hvals : countVals p =
      as.map (fun d => p.count d) ++ p.count c :: bs.map (fun d => p.count d) := by
    rw [countVals, hsplit]; simp
  have hmas_le : maxL (as.map fun d => p.count d) ≤ p.count c :=
    maxL_le (by
      intro x hx
      obtain ⟨a, ha, rfl⟩ := List.mem_map.mp hx
      exact le_of_lt (hlt_as a ha))
  have hmbs_le : maxL (bs.map fun d => p.count d) ≤ p.count c :=
    maxL_le (by
      intro x hx
      obtain ⟨b, hb, rfl⟩ := List.mem_map.mp hx
      exact le_of_lt (hlt_bs b hb))
  have hleader : leaderCount p = p.count c := by
    rw [leaderCount, hvals, maxL_append, maxL_cons]
    rw [max_eq_left hmbs_le, max_eq_right hmas_le]
  refine ⟨hleader, ?_⟩
  have hnotin : p.count c ∉ as.map (fun d => p.count d) := by
    intro hmem
    obtain ⟨a, ha, heq⟩ := List.mem_map.mp hmem
    exact absurd heq (Nat.ne_of_lt (hlt_as a ha))
  have herase : (countVals p).erase (leaderCount p) =
      as.map (fun d => p.count d) ++ bs.map (fun d => p.count d) := by
    rw [hvals, hleader, List.erase_append_right _ hnotin, List.erase_cons_head]
  have hfilter : (cands p).filter (fun d => d ≠ c) = as ++ bs := by
    rw [hsplit, List.filter_append, List.filter_cons]
    have h1 : as.filter (fun d => !decide (d = c)) = as :=
      List.filter_eq_self.mpr (by
        intro a ha
        simp only [Bool.not_eq_true', decide_eq_false_iff_not]
        rintro rfl; exact hcas ha)
    have h2 : bs.filter (fun d => !decide (d = c)) = bs :=
      List.filter_eq_self.mpr (by
        intro b hb
        simp only [Bool.not_eq_true', decide_eq_false_iff_not]
        rintro rfl; exact hcbs hb)
    simp [h1, h2]
  rw [runnerUpCount, herase, maxOther, hfilter, List.map_append]

/-- A spec-qualifying candidate is the strict unique maximum (for `k ≥ 1`). -/
theorem qualifies_unique_max {p : List Nat} {k c : Nat} (hk : 1 ≤ k)
    (hq : specQualifies p k c = true) :
    ∀ d ∈ cands p, d ≠ c → p.count d < p.count c := by
  intro d hd hdc
  have hmem : p.count d ∈ ((cands p).filter (fun e => e ≠ c)).map
      (fun e => p.count e) :=
    List.mem_map_of_mem _ (List.mem_filter.mpr ⟨hd, by simp [hdc]⟩)
  have hle : p.count d ≤ maxOther p c := le_maxL_of_mem hmem
  have hqle : maxOther p c + k ≤ p.count c := by
    simpa [specQualifies] using hq
  omega

/-- Two `find?`s agree when the first predicate implies the second and the
second's first hit satisfies the first. -/
theorem find?_congr_of_imp {α : Type} {p q : α → Bool} {l : List α}
    (himp : ∀ x ∈ l, p x = true → q x = true)
    (hhit : ∀ c, l.find? q = some c → p c = true) :
    l.find? p = l.find? q := by
  induction l with
  | nil => rfl
  | cons x xs ih =>
      by_cases hq : q x
      · have hp : p x = true := hhit x (by rw [List.find?_cons_of_pos _ hq])
        rw [List.find?_cons_of_pos _ hq, List.find?_cons_of_pos _ hp]
      · have hp : p x = false := by
          by_contra hpx
          have := himp x (List.mem_cons_self _ _)
            (by revert hpx; cases p x <;> simp)
          simp [hq] at this
        rw [List.find?_cons_of_neg _ hq,
          List.find?_cons_of_neg _ (by simp [hp])]
        exact ih (fun y hy => himp y (List.mem_cons_of_mem _ hy))
          (fun c hcq => hhit c (by
            rwa [List.find?_cons_of_neg _ hq]))

/-- Evaluation of `stepDecision` when at least two candidates were seen. -/
theorem stepDecision_two {p : List Nat} {c1 c2 : Nat} {tl : List Nat}
    (h : cands p = c1 :: c2 :: tl) (k : Nat) :
    stepDecision p k =
      if runnerUpCount p + k ≤ leaderCount p then
        (cands p).find? (fun c => p.count c = leaderCount p)
      else none := by
  rw [stepDecision, h]

/-- On every prefix, the source's loop body decides exactly as the spec's
per-candidate qualification rule (for `k ≥ 1`). -/
theorem stepDecision_eq_specDecision (p : List Nat) (k : Nat) (hk : 1 ≤ k) :
    stepDecision p k = specDecision p k := by
  rcases hcs : cands p with _ | ⟨c1, _ | ⟨c2, tl⟩⟩
  · rw [stepDecision, specDecision, hcs]; rfl
  · have hmo : maxOther p c1 = 0 := by
      rw [maxOther, hcs]; simp [maxL]
    rw [stepDecision, specDecision, hcs]
    by_cases h : k ≤ p.count c1
    · simp [List.find?, specQualifies, hmo, h]
    · simp [List.find?, specQualifies, hmo, h]
  · have hlist : cands p = c1 :: c2 :: tl := hcs
    by_cases hR : runnerUpCount p + k ≤ leaderCount p
    · -- the streaming test passes: both sides return the unique leader
      have hne : countVals p ≠ [] := by rw [countVals, hcs]; simp
      have hmemmax : leaderCount p ∈ countVals p := maxL_mem hne
      obtain ⟨c0, hc0mem, hc0⟩ := List.mem_map.mp (by
        rw [countVals] at hmemmax; exact hmemmax)
      cases hfs : (cands p).find? (fun c => p.count c = leaderCount p) with
      | none =>
          exfalso
          have := List.find?_eq_none.mp hfs c0 hc0mem
          simp [hc0] at this
      | some cstar =>
          obtain ⟨as, bs, hsplit, has, hcmax⟩ := find?_split hfs
          have hcmax' : p.count cstar = leaderCount p := by
            simpa using hcmax
          have hcstar_mem : cstar ∈ cands p := by
            rw [hsplit]
            exact List.mem_append_right _ (List.mem_cons_self _ _)
          have has' : ∀ a ∈ as, p.count a ≠ leaderCount p := by
            intro a ha
            have := has a ha
            simpa using this
          have hle_all : ∀ d ∈ cands p, p.count d ≤ leaderCount p := by
            intro d hd
            exact le_maxL_of_mem (List.mem_map_of_mem _ hd)
          have huniq : ∀ d ∈ cands p, d ≠ cstar →
              p.count d < p.count cstar := by
            intro d hd hdc
            rw [hsplit] at hd
            rcases List.mem_append.mp hd with hdas | hdcs
            · have := has' d hdas
              have hle := hle_all d (by
                rw [hsplit]; exact List.mem_append_left _ hdas)
              rw [hcmax']
              omega
            · rcases List.mem_cons.mp hdcs with rfl | hdbs
              · exact absurd rfl hdc
              · -- a second count equal to the leader would force
                -- runner_up = leader, contradicting the passed test
                have hle := hle_all d (by
                  rw [hsplit]
                  exact List.mem_append_right _ (List.mem_cons_of_mem _ hdbs))
                rcases Nat.lt_or_ge (p.count d) (leaderCount p) with hlt | hge
                · rw [hcmax']; exact hlt
                · exfalso
                  have hdeq : p.count d = leaderCount p := le_antisymm hle hge
                  have hnotin : leaderCount p ∉
                      as.map (fun e => p.count e) := by
                    intro hmem
                    obtain ⟨a, ha, heq⟩ := List.mem_map.mp hmem
                    exact has' a ha heq
                  have herase : (countVals p).erase (leaderCount p) =
                      as.map (fun e => p.count e) ++
                        bs.map (fun e => p.count e) := by
                    rw [countVals, hsplit, List.map_append, List.map_cons,
                      hcmax', List.erase_append_right _ hnotin,
                      List.erase_cons_head]
                  have hmemd : leaderCount p ∈
                      as.map (fun e => p.count e) ++
                        bs.map (fun e => p.count e) := by
                    refine List.mem_append_right _ ?_
                    rw [← hdeq]
                    exact List.mem_map_of_mem _ hdbs
                  have : leaderCount p ≤ runnerUpCount p := by
                    rw [runnerUpCount, herase]
                    exact le_maxL_of_mem hmemd
                  omega
          obtain ⟨-, hRU⟩ := unique_max_facts hcstar_mem huniq
          have hqstar : specQualifies p k cstar = true := by
            simp only [specQualifies, decide_eq_true_eq]
            rw [← hRU, hcmax']
            exact hR
          have hasq : ∀ a ∈ as, specQualifies p k a = false := by
            intro a ha
            by_contra hqa
            have hqa' : specQualifies p k a = true := by
              revert hqa; cases specQualifies p k a <;> simp
            have huniq_a := qualifies_unique_max hk hqa'
            have hamem : a ∈ cands p := by
              rw [hsplit]; exact List.mem_append_left _ ha
            obtain ⟨hLa, -⟩ := unique_max_facts hamem huniq_a
            exact has' a ha hLa.symm
          have hspec : specDecision p k = some cstar := by
            rw [specDecision, hsplit]
            exact find?_of_split hasq hqstar
          rw [stepDecision_two hlist, if_pos hR, hfs, hspec]
    · -- the streaming test fails: no candidate qualifies for the spec either
      have hnone : ∀ c ∈ cands p, ¬ (specQualifies p k c = true) := by
        intro c hcmem hq
        have huniq := qualifies_unique_max hk hq
        obtain ⟨hL, hRU⟩ := unique_max_facts hcmem huniq
        have : maxOther p c + k ≤ p.count c := by
          simpa [specQualifies] using hq
        rw [← hL, ← hRU] at this
        exact hR this
      have hfind : (cands p).find? (specQualifies p k) = none :=
        List.find?_eq_none.mpr hnone
      rw [stepDecision_two hlist, if_neg hR, specDecision, hfind]

/-- The streaming loops agree pointwise (for `k ≥ 1`). -/
theorem aheadGo_eq_specAheadGo (rest : List Nat) (processed : List Nat)
    (k : Nat) (hk : 1 ≤ k) :
    aheadGo processed rest k = specAheadGo processed rest k := by
  induction rest generalizing processed with
  | nil => rfl
  | cons v vs ih =>
      rw [aheadGo, specAheadGo, stepDecision_eq_specDecision _ _ hk]
      cases specDecision (processed ++ [v]) k with
      | none => exact ih (processed ++ [v])
      | some c => rfl

/-- A tie at the leading count never yields a decision (for `k ≥ 1`). -/
theorem tie_holds_decision {p : List Nat} {k c d : Nat} (hk : 1 ≤ k)
    (hc : c ∈ p) (hd : d ∈ p) (hcd : c ≠ d) (htie : p.count c = p.count d)
    (hmax : ∀ e ∈ p, p.count e ≤ p.count c) :
    stepDecision p k = none := by
  rw [stepDecision_eq_specDecision _ _ hk, specDecision]
  refine List.find?_eq_none.mpr ?_
  intro e he hq
  have huniq := qualifies_unique_max hk hq
  have hcmem : c ∈ cands p := mem_cands.mpr hc
  have hdmem : d ∈ cands p := mem_cands.mpr hd
  by_cases hec : e = c
  · subst hec
    have := huniq d hdmem (fun h => hcd h.symm)
    omega
  · by_cases hed : e = d
    · subst hed
      have := huniq c hcmem (fun h => hec h.symm)
      omega
    · have h1 := huniq c hcmem (fun h => hec h.symm)
      have h2 := hmax e (mem_cands.mp he)
      omega

/-- The concrete sequence `[a, a, a]` with `k = 2` decides for `a` after the
second vote (single-candidate rule). -/
theorem ahead_triple (a : Nat) : first_to_ahead_by_k [a, a, a] 2 = some a := by
  have h1 : cands [a] = [a] := by simp [cands]
  have h2 : cands [a, a] = [a] := by simp [cands]
  have hc1 : List.count a [a] = 1 := by simp
  have hc2 : List.count a [a, a] = 2 := by simp
  have hs1 : stepDecision [a] 2 = none := by
    rw [stepDecision, h1]
    simp [hc1]
  have hs2 : stepDecision [a, a] 2 = some a := by
    rw [stepDecision, h2]
    simp [hc2]
  rw [first_to_ahead_by_k, aheadGo]
  simp only [List.nil_append, hs1]
  rw [aheadGo]
  simp only [List.singleton_append, hs2]

/-- C1: for every vote sequence and every `k ≥ 1`, `first_to_ahead_by_k`
streams the votes left to right and returns the first candidate whose
running count reaches the best other count plus `k` (degenerating to
reaching `k` while only one candidate has received votes), exactly as the
spec words it; a tie at the leading count never yields a decision; and for
votes `[a, a, a]` with `k = 2` the result is `a`. -/
theorem C1_first_to_ahead_by_k_follows_spec (votes : List Nat) (k a : Nat)
    (hk : 1 ≤ k) :
    first_to_ahead_by_k votes k = spec_first_to_ahead_by_k votes k
    ∧ (∀ p c d, c ∈ p → d ∈ p → c ≠ d → p.count c = p.count d →
        (∀ e ∈ p, p.count e ≤ p.count c) → stepDecision p k = none)
    ∧ first_to_ahead_by_k [a, a, a] 2 = some a := by
  refine ⟨?_, ?_, ahead_triple a⟩
  · rw [first_to_ahead_by_k, spec_first_to_ahead_by_k]
    exact aheadGo_eq_specAheadGo votes [] k hk
  · intro p c d hc hd hcd htie hmax
    exact tie_holds_decision hk hc hd hcd htie hmax

theorem C1_first_to_ahead_by_k_follows_spec_witness :
    1 ≤ 1 ∧
      (first_to_ahead_by_k [0, 1, 0, 0] 1 =
          spec_first_to_ahead_by_k [0, 1, 0, 0] 1
        ∧ (∀ p c d, c ∈ p → d ∈ p → c ≠ d → p.count c = p.count d →
            (∀ e ∈ p, p.count e ≤ p.count c) → stepDecision p 1 = none)
        ∧ first_to_ahead_by_k [5, 5, 5] 2 = some 5) :=
  ⟨by decide, C1_first_to_ahead_by_k_follows_spec [0, 1, 0, 0] 1 5 (by decide)⟩

/-! ## The plurality fallback (C2, C10) -/

/-- Invariant of the `majority_vote` scan: the running leader always holds a
maximal count over the processed votes, so the final leader holds a maximal
count over all votes. -/
theorem majorityGo_max (rest : List Nat) :
    ∀ (processed : List Nat) (leader leaderCnt : Nat),
      processed.count leader = leaderCnt →
      (∀ d, processed.count d ≤ leaderCnt) →
      ∀ d, (processed ++ rest).count d ≤
        (processed ++ rest).count (majorityGo processed leader leaderCnt rest) := by
  induction rest with
  | nil =>
      intro processed leader leaderCnt hcount hmax d
      simpa [majorityGo, hcount] using hmax d
  | cons v vs ih =>
      intro processed leader leaderCnt hcount hmax d
      rw [majorityGo]
      have happ : processed ++ v :: vs = (processed ++ [v]) ++ vs := by
        simp
      by_cases hlt : leaderCnt < processed.count v + 1
      · rw [if_pos hlt, happ]
        refine ih (processed ++ [v]) v (processed.count v + 1) ?_ ?_ d
        · simp
        · intro e
          by_cases hev : e = v
          · subst hev; simp
          · have : (processed ++ [v]).count e = processed.count e := by
              simp [List.count_append, hev]
            rw [this]
            exact le_trans (hmax e) (le_of_lt hlt)
      · rw [if_neg hlt, happ]
        have hlv : leader ≠ v := by
          rintro rfl
          omega
        refine ih (processed ++ [v]) leader leaderCnt ?_ ?_ d
        · simp [List.count_append, hlv, hcount]
        · intro e
          by_cases hev : e = v
          · subst hev; simp; omega
          · simp [List.count_append, hev, hmax e]

/-- The plurality winner returned by `majority_vote` holds a maximal count. -/
theorem majority_vote_max {votes : List Nat} {c : Nat}
    (h : majority_vote votes = some c) :
    ∀ d, votes.count d ≤ votes.count c := by
  match votes, h with
  | v0 :: vs, h =>
      rw [majority_vote] at h
      cases h
      intro d
      have := majorityGo_max (v0 :: vs) [] v0 0 (by simp) (fun d => by simp) d
      simpa using this

/-- The scan invariant pinning the tie-break: the running leader has a
split `processed = p ++ leader :: q` in which that occurrence completes
the leader's running count and no candidate had reached that count within
`p` — the leader is the candidate that *first reached* the current top
count.  (At the initial state the count is 0 and no split exists yet.) -/
theorem majorityGo_first (rest : List Nat) :
    ∀ (processed : List Nat) (leader cnt : Nat),
      processed.count leader = cnt →
      (∀ d, processed.count d ≤ cnt) →
      (cnt = 0 ∨ ∃ p q, processed = p ++ leader :: q
        ∧ p.count leader + 1 = cnt ∧ ∀ d, p.count d < cnt) →
      (processed ++ rest).count (majorityGo processed leader cnt rest) = 0
      ∨ ∃ p q,
          processed ++ rest = p ++ (majorityGo processed leader cnt rest) :: q
          ∧ p.count (majorityGo processed leader cnt rest) + 1
              = (processed ++ rest).count (majorityGo processed leader cnt rest)
          ∧ ∀ d, p.count d
              < (processed ++ rest).count (majorityGo processed leader cnt rest) := by
  induction rest with
  | nil =>
      intro processed leader cnt hcount hmax hpos
      simp only [majorityGo, List.append_nil]
      rcases hpos with h0 | ⟨p, q, hsplit, hcnt, hltp⟩
      · left
        rw [hcount, h0]
      · right
        refine ⟨p, q, hsplit, ?_, ?_⟩
        · rw [hcount]
          exact hcnt
        · intro d
          rw [hcount]
          exact hltp d
  | cons v vs ih =>
      intro processed leader cnt hcount hmax hpos
      rw [majorityGo]
      have happ : processed ++ v :: vs = (processed ++ [v]) ++ vs := by
        simp
      by_cases hlt : cnt < processed.count v + 1
      · rw [if_pos hlt, happ]
        refine ih (processed ++ [v]) v (processed.count v + 1) ?_ ?_ ?_
        · simp
        · intro e
          by_cases hev : e = v
          · subst hev; simp
          · have : (processed ++ [v]).count e = processed.count e := by
              simp [List.count_append, hev]
            rw [this]
            exact le_trans (hmax e) (le_of_lt hlt)
        · right
          refine ⟨processed, [], by simp, by simp, ?_⟩
          intro d
          calc processed.count d ≤ cnt := hmax d
            _ < processed.count v + 1 := hlt
      · rw [if_neg hlt, happ]
        have hlv : leader ≠ v := by
          rintro rfl
          omega
        refine ih (processed ++ [v]) leader cnt ?_ ?_ ?_
        · simp [List.count_append, hlv, hcount]
        · intro e
          by_cases hev : e = v
          · subst hev; simp; omega
          · simp [List.count_append, hev, hmax e]
        · rcases hpos with h0 | ⟨p, q, hsplit, hcnt, hltp⟩
          · omega
          · right
            refine ⟨p, q ++ [v], ?_, hcnt, hltp⟩
            rw [hsplit]
            simp

/-- The `majority_vote` winner is the candidate that first reached the
leading count: `votes` splits at an occurrence of the winner `c` that
completes `c`'s final (maximal) count, before which no candidate had
reached that count. -/
theorem majority_vote_first_to_reach {votes : List Nat} {c : Nat}
    (h : majority_vote votes = some c) :
    ∃ p q, votes = p ++ c :: q
      ∧ p.count c + 1 = votes.count c
      ∧ ∀ d, p.count d < votes.count c := by
  match votes, h with
  | v0 :: vs, h =>
      have hmaxc := majority_vote_max h
      rw [majority_vote] at h
      cases h
      have hfirst := majorityGo_first (v0 :: vs) [] v0 0 (by simp)
        (fun d => by simp) (Or.inl rfl)
      rcases hfirst with h0 | hfact
      · exfalso
        have h1 : 1 ≤ (v0 :: vs).count v0 := by
          simp
        have h2 := hmaxc v0
        rw [List.nil_append] at h0
        omega
      · rw [List.nil_append] at hfact
        exact hfact

/-- Auxiliary for uniqueness: a candidate completing its maximal count at
an earlier split than another first-reacher is impossible. -/
theorem first_reach_not_shorter {votes p q p' q' : List Nat} {c c' : Nat}
    (hsp : votes = p ++ c :: q) (hsp' : votes = p' ++ c' :: q')
    (hcnt : p.count c + 1 = votes.count c)
    (hlt' : ∀ d, p'.count d < votes.count c')
    (hM : votes.count c = votes.count c') :
    ¬ p.length < p'.length := by
  intro hlen
  have h1 : votes.take (p.length + 1) = p ++ [c] := by
    rw [hsp, show p ++ c :: q = (p ++ [c]) ++ q by simp]
    exact List.take_left' (by simp)
  have h2 : votes.take p'.length = p' := by
    rw [hsp']
    exact List.take_left' rfl
  have hpre : votes.take (p.length + 1) <+: votes.take p'.length := by
    have : votes.take (p.length + 1)
        = (votes.take p'.length).take (p.length + 1) := by
      rw [List.take_take, min_eq_left (by omega)]
    rw [this]
    exact List.take_prefix _ _
  rw [h1, h2] at hpre
  obtain ⟨t, ht⟩ := hpre
  have hpc : p'.count c = p.count c + 1 + t.count c := by
    rw [← ht]
    simp [List.count_append]
    omega
  have := hlt' c
  omega

/-- Uniqueness of the first-reacher: at most one candidate holding a
maximal count admits a split completing its final count before any
candidate reached that count. -/
theorem first_to_reach_unique {votes : List Nat} {c c' : Nat}
    (hmax : ∀ d, votes.count d ≤ votes.count c)
    (hmax' : ∀ d, votes.count d ≤ votes.count c')
    (h : ∃ p q, votes = p ++ c :: q ∧ p.count c + 1 = votes.count c
        ∧ ∀ d, p.count d < votes.count c)
    (h' : ∃ p q, votes = p ++ c' :: q ∧ p.count c' + 1 = votes.count c'
        ∧ ∀ d, p.count d < votes.count c') :
    c = c' := by
  obtain ⟨p, q, hsp, hcnt, hlt⟩ := h
  obtain ⟨p', q', hsp', hcnt', hlt'⟩ := h'
  have hM : votes.count c = votes.count c' :=
    le_antisymm (hmax' c) (hmax c')
  have h1 := first_reach_not_shorter hsp hsp' hcnt hlt' hM
  have h2 := first_reach_not_shorter hsp' hsp hcnt'
    (fun d => hM ▸ hlt d) hM.symm
  have hlen : p.length = p'.length := by omega
  rw [hsp] at hsp'
  obtain ⟨-, htail⟩ := List.append_inj hsp' hlen
  exact (List.cons.injEq _ _ _ _ ▸ htail).1

/-- `majority_vote` on a nonempty vote list returns a winner. -/
theorem majority_vote_isSome {votes : List Nat} (h : votes ≠ []) :
    ∃ c, majority_vote votes = some c := by
  cases votes with
  | nil => exact absurd rfl h
  | cons v vs => exact ⟨_, rfl⟩

/-- Evaluation of `aheadGo` when the first two votes agree and `k = 2`:
after the second vote a single candidate holds two votes, deciding then. -/
theorem aheadGo_pair (a : Nat) (rest : List Nat) :
    aheadGo [] (a :: a :: rest) 2 = some a := by
  have h1 : cands [a] = [a] := by simp [cands]
  have h2 : cands [a, a] = [a] := by simp [cands]
  have hs1 : stepDecision [a] 2 = none := by
    rw [stepDecision, h1]
    simp
  have hs2 : stepDecision [a, a] 2 = some a := by
    rw [stepDecision, h2]
    simp
  rw [aheadGo]
  simp only [List.nil_append, hs1]
  rw [aheadGo]
  simp only [List.singleton_append, hs2]

/-- With two distinct alternating candidates `[a, b, a, b, a]`, no prefix
ever puts the leader two ahead, so the stream yields no decision. -/
theorem ahead_ababa_ne (a b : Nat) (hab : a ≠ b) :
    first_to_ahead_by_k [a, b, a, b, a] 2 = none := by
  have hba : b ≠ a := fun h => hab h.symm
  have hc1 : cands [a] = [a] := by simp [cands]
  have hc2 : cands [a, b] = [a, b] := by simp [cands, hba]
  have hc3 : cands [a, b, a] = [a, b] := by simp [cands, hba, hab]
  have hc4 : cands [a, b, a, b] = [a, b] := by simp [cands, hba, hab]
  have hc5 : cands [a, b, a, b, a] = [a, b] := by simp [cands, hba, hab]
  have hv2 : countVals [a, b] = [1, 1] := by
    rw [countVals, hc2]
    simp [List.count_cons, hab, hba]
  have hv3 : countVals [a, b, a] = [2, 1] := by
    rw [countVals, hc3]
    simp [List.count_cons, hab, hba]
  have hv4 : countVals [a, b, a, b] = [2, 2] := by
    rw [countVals, hc4]
    simp [List.count_cons, hab, hba]
  have hv5 : countVals [a, b, a, b, a] = [3, 2] := by
    rw [countVals, hc5]
    simp [List.count_cons, hab, hba]
  have hl2 : leaderCount [a, b] = 1 := by rw [leaderCount, hv2]; decide
  have hl3 : leaderCount [a, b, a] = 2 := by rw [leaderCount, hv3]; decide
  have hl4 : leaderCount [a, b, a, b] = 2 := by rw [leaderCount, hv4]; decide
  have hl5 : leaderCount [a, b, a, b, a] = 3 := by rw [leaderCount, hv5]; decide
  have hr2 : runnerUpCount [a, b] = 1 := by
    rw [runnerUpCount, hv2, hl2]; decide
  have hr3 : runnerUpCount [a, b, a] = 1 := by
    rw [runnerUpCount, hv3, hl3]; decide
  have hr4 : runnerUpCount [a, b, a, b] = 2 := by
    rw [runnerUpCount, hv4, hl4]; decide
  have hr5 : runnerUpCount [a, b, a, b, a] = 2 := by
    rw [runnerUpCount, hv5, hl5]; decide
  have hs1 : stepDecision [a] 2 = none := by
    rw [stepDecision, hc1]
    simp
  have hs2 : stepDecision [a, b] 2 = none := by
    rw [stepDecision_two hc2, hl2, hr2]
    simp
  have hs3 : stepDecision [a, b, a] 2 = none := by
    rw [stepDecision_two hc3, hl3, hr3]
    simp
  have hs4 : stepDecision [a, b, a, b] 2 = none := by
    rw [stepDecision_two hc4, hl4, hr4]
    simp
  have hs5 : stepDecision [a, b, a, b, a] 2 = none := by
    rw [stepDecision_two hc5, hl5, hr5]
    simp
  rw [first_to_ahead_by_k]
  rw [aheadGo]
  simp only [List.nil_append, hs1]
  rw [aheadGo]
  simp only [List.cons_append, List.nil_append, hs2]
  rw [aheadGo]
  simp only [List.cons_append, List.nil_append, hs3]
  rw [aheadGo]
  simp only [List.cons_append, List.nil_append, hs4]
  rw [aheadGo]
  simp only [List.cons_append, List.nil_append, hs5]
  rw [aheadGo]

/-- On `[a, b, a, b, a]` with `k = 2` the vote tasks' winner is `a`:
either directly when `a = b`, or through the plurality fallback. -/
theorem vote_winner_ababa (a b C : Nat) (ha : a < C) (hab2 : b < C) :
    vote_winner [a, b, a, b, a] 2 C = a := by
  have hmin : min a (C - 1) = a := by omega
  by_cases hab : a = b
  · subst hab
    rw [vote_winner]
    have h2 : first_to_ahead_by_k [a, a, a, a, a] (max 2 1) = some a := by
      rw [first_to_ahead_by_k]
      exact aheadGo_pair a [a, a, a]
    rw [h2, hmin]
  · have hba : b ≠ a := fun h => hab h.symm
    have hnone : first_to_ahead_by_k [a, b, a, b, a] (max 2 1) = none :=
      ahead_ababa_ne a b hab
    obtain ⟨c, hcm⟩ := majority_vote_isSome
      (by simp : ([a, b, a, b, a] : List Nat) ≠ [])
    have hmaxc := majority_vote_max hcm
    have hca : List.count a [a, b, a, b, a] = 3 := by
      simp [List.count_cons, hab, hba]
    have hcb : List.count b [a, b, a, b, a] = 2 := by
      simp [List.count_cons, hab, hba]
    have h3 : 3 ≤ List.count c [a, b, a, b, a] := by
      have := hmaxc a
      rwa [hca] at this
    have hceq : c = a := by
      by_contra hc
      by_cases hcb' : c = b
      · subst hcb'
        omega
      · have hzero : List.count c [a, b, a, b, a] = 0 := by
          simp [List.count_cons, hc, hcb']
        omega
    subst hceq
    rw [vote_winner, hnone, hcm, hmin]

/-- C2 counterexample: with votes `[1, 0]` no streaming decision is reached
(`k = 2`), the plurality counts tie, yet the fallback returns candidate
`1` — not the lowest candidate index `0` the claim requires. -/
theorem C2_tie_not_lowest_counterexample :
    first_to_ahead_by_k [1, 0] (max 2 1) = none
    ∧ List.count 0 [1, 0] = List.count 1 [1, 0]
    ∧ vote_winner [1, 0] 2 2 = 1 := by decide

/-- C2 amended: when no candidate qualifies under the ahead-by-`k` rule the
vote tasks fall back to plain plurality (`majority_vote`), whose winner
always holds a maximal vote count; a tie in plurality counts is resolved
toward the candidate that first reached the leading count during the
left-to-right scan (not necessarily the lowest index): the vote list
splits at an occurrence of the winner that completes its final count,
before which no candidate had reached that count — a property holding for
exactly one candidate among those tied at the maximum; in particular, for
votes `[a, b, a, b, a]` with `k = 2` the fallback returns `a`. -/
theorem C2_plurality_fallback_scan_order (votes : List Nat)
    (k C a b : Nat) (hv : votes ≠ []) (ha : a < C) (hb : b < C)
    (hnone : first_to_ahead_by_k votes (max k 1) = none) :
    (∃ c, majority_vote votes = some c
      ∧ vote_winner votes k C = min c (C - 1)
      ∧ (∀ d, votes.count d ≤ votes.count c)
      ∧ (∃ p q, votes = p ++ c :: q
          ∧ p.count c + 1 = votes.count c
          ∧ ∀ d, p.count d < votes.count c)
      ∧ ∀ c', (∀ d, votes.count d ≤ votes.count c') →
          (∃ p q, votes = p ++ c' :: q
            ∧ p.count c' + 1 = votes.count c'
            ∧ ∀ d, p.count d < votes.count c') → c' = c)
    ∧ vote_winner [a, b, a, b, a] 2 C = a := by
  refine ⟨?_, vote_winner_ababa a b C ha hb⟩
  obtain ⟨c, hc⟩ := majority_vote_isSome hv
  refine ⟨c, hc, ?_, majority_vote_max hc, majority_vote_first_to_reach hc,
    ?_⟩
  · rw [vote_winner, hnone, hc]
  · intro c' hmax' hreach'
    exact first_to_reach_unique hmax' (majority_vote_max hc) hreach'
      (majority_vote_first_to_reach hc)

theorem C2_plurality_fallback_scan_order_witness :
    (([1, 0] : List Nat) ≠ [] ∧ 0 < 2 ∧ 1 < 2
        ∧ first_to_ahead_by_k [1, 0] (max 2 1) = none)
    ∧ ((∃ c, majority_vote [1, 0] = some c
        ∧ vote_winner [1, 0] 2 2 = min c (2 - 1)
        ∧ (∀ d, List.count d [1, 0] ≤ List.count c [1, 0])
        ∧ (∃ p q, ([1, 0] : List Nat) = p ++ c :: q
            ∧ p.count c + 1 = List.count c [1, 0]
            ∧ ∀ d, p.count d < List.count c [1, 0])
        ∧ ∀ c', (∀ d, List.count d [1, 0] ≤ List.count c' [1, 0]) →
            (∃ p q, ([1, 0] : List Nat) = p ++ c' :: q
              ∧ p.count c' + 1 = List.count c' [1, 0]
              ∧ ∀ d, p.count d < List.count c' [1, 0]) → c' = c)
      ∧ vote_winner [0, 1, 0, 1, 0] 2 2 = 0) :=
  ⟨⟨by decide, by decide, by decide, by decide⟩,
    C2_plurality_fallback_scan_order [1, 0] 2 2 0 1 (by decide) (by decide)
      (by decide) (by decide)⟩

/-! ## Workflow metrics (`src/context.rs`)

`WorkflowMetrics.per_step` and `.vote_history` are `HashMap`s whose reads
go through `entry(..).or_default()`; we model them as total functions from
keys to values, with the `Default` value for absent keys.  `VecDeque`
becomes a list whose front is the head (`pop_front` = `tail`, `push_back`
= append). -/

inductive AgentKind
  | decomposition
  | decompositionDiscriminator
  | solver
  | solutionDiscriminator
deriving DecidableEq

structure RedFlagIncident where
  flagger : List Char
  reason : List Char
  sample_preview : List Char
deriving DecidableEq

structure StepMetrics where
  samples_requested : Nat := 0
  samples_retained : Nat := 0
  resamples : Nat := 0
  red_flags : List RedFlagIncident := []
  vote_margin : Option Nat := none
  duration_ms : Option Nat := none
  verification_passed : Option Bool := none
deriving DecidableEq

structure VoteStats where
  recent_margins : List Nat := []
  total_votes : Nat := 0
deriving DecidableEq

structure WorkflowMetrics where
  sample_count : Nat := 0
  resample_count : Nat := 0
  vote_attempts : Nat := 0
  decomposition_runs : Nat := 0
  solve_runs : Nat := 0
  red_flag_hits : Nat := 0
  per_step : Nat → StepMetrics := fun _ => {}
  vote_history : AgentKind → VoteStats := fun _ => {}

/-- A metrics value with every counter zero and every map empty. -/
def emptyMetrics : WorkflowMetrics := {}

/-- `WorkflowMetrics::record_vote` from `src/context.rs`: computes
`margin = winner.saturating_sub(runner_up).max(1)`, stores it as the
step's `vote_margin`, and pushes it onto the discriminator kind's ring of
recent margins, popping the front when the ring already holds 8 entries. -/
def record_vote (m : WorkflowMetrics) (step_id : Nat) (kind : AgentKind)
    (winner_count runner_up_count : Nat) : WorkflowMetrics :=
  let margin := max (winner_count - runner_up_count) 1
  let stats := m.vote_history kind
  let ring :=
    if 8 ≤ stats.recent_margins.length then stats.recent_margins.tail
    else stats.recent_margins
  { m with
    vote_attempts := m.vote_attempts + 1
    per_step := fun i =>
      if i = step_id then
        { m.per_step step_id with vote_margin := some margin }
      else m.per_step i
    vote_history := fun kd =>
      if kd = kind then
        { stats with
          total_votes := stats.total_votes + 1
          recent_margins := ring ++ [margin] }
      else m.vote_history kd }

/-- C9: every `record_vote` stores the step's `vote_margin` as the winner
count minus the runner-up count clamped to at least 1, and keeps every
discriminator kind's ring of recent margins at 8 entries or fewer,
evicting the oldest entry when a ninth margin arrives. -/
theorem C9_record_vote_margin_and_ring (m : WorkflowMetrics) (step_id : Nat)
    (kind : AgentKind) (w r : Nat)
    (hring : ∀ kd, ((m.vote_history kd).recent_margins).length ≤ 8) :
    ((record_vote m step_id kind w r).per_step step_id).vote_margin
        = some (max (w - r) 1)
    ∧ (∀ kd,
        (((record_vote m step_id kind w r).vote_history kd).recent_margins).length
          ≤ 8)
    ∧ ((m.vote_history kind).recent_margins.length = 8 →
        ((record_vote m step_id kind w r).vote_history kind).recent_margins
          = (m.vote_history kind).recent_margins.tail ++ [max (w - r) 1]) := by
  refine ⟨by simp [record_vote], ?_, ?_⟩
  · intro kd
    by_cases hkd : kd = kind
    · subst hkd
      have h8 := hring kd
      by_cases hfull : 8 ≤ ((m.vote_history kd).recent_margins).length
      · simp [record_vote, hfull, List.length_tail]
        omega
      · simp [record_vote, hfull]
        omega
    · simpa [record_vote, hkd] using hring kd
  · intro hfull
    have : 8 ≤ ((m.vote_history kind).recent_margins).length := le_of_eq hfull.symm
    simp [record_vote, this]

theorem C9_record_vote_margin_and_ring_witness :
    (∀ kd, ((emptyMetrics.vote_history kd).recent_margins).length ≤ 8)
    ∧ (((record_vote emptyMetrics 3 AgentKind.solver 5 2).per_step 3).vote_margin
          = some (max (5 - 2) 1)
      ∧ (∀ kd,
          (((record_vote emptyMetrics 3 AgentKind.solver 5 2).vote_history
              kd).recent_margins).length ≤ 8)
      ∧ ((emptyMetrics.vote_history AgentKind.solver).recent_margins.length = 8 →
          ((record_vote emptyMetrics 3 AgentKind.solver 5 2).vote_history
              AgentKind.solver).recent_margins
            = (emptyMetrics.vote_history
                AgentKind.solver).recent_margins.tail ++ [max (5 - 2) 1])) :=
  ⟨fun kd => by simp [emptyMetrics],
    C9_record_vote_margin_and_ring emptyMetrics 3 AgentKind.solver 5 2
      (fun kd => by simp [emptyMetrics])⟩

/-- The maximum of a list of zeros is zero. -/
theorem maxL_replicate_zero (n : Nat) : maxL (List.replicate n 0) = 0 := by
  refine Nat.le_zero.mp (maxL_le ?_)
  intro x hx
  rw [List.eq_of_mem_replicate hx]

/-- C10: with an empty parsed vote list (no discriminator response parsed
to a valid vote) the vote tasks do not fail: the selected winner index is
`0`, `vote_counts` reports `(0, 0)`, and the recorded `vote_margin` is
`1`. -/
theorem C10_no_valid_votes_defaults (k C step_id : Nat)
    (kind : AgentKind) (m : WorkflowMetrics) (hC : 1 ≤ C) :
    vote_winner [] k C = 0
    ∧ vote_counts [] C 0 = (0, 0)
    ∧ ((record_vote m step_id kind 0 0).per_step step_id).vote_margin = some 1 := by
  refine ⟨?_, ?_, ?_⟩
  · rw [vote_winner]
    simp [first_to_ahead_by_k, aheadGo, majority_vote]
  · rw [vote_counts]
    have hC0 : C ≠ 0 := by omega
    simp [hC0, maxL_replicate_zero]
  · simp [record_vote]

theorem C10_no_valid_votes_defaults_witness :
    1 ≤ 3
    ∧ (vote_winner [] 2 3 = 0
      ∧ vote_counts [] 3 0 = (0, 0)
      ∧ ((record_vote emptyMetrics 1 AgentKind.decompositionDiscriminator
            0 0).per_step 1).vote_margin = some 1) :=
  ⟨by decide,
    C10_no_valid_votes_defaults 2 3 1 AgentKind.decompositionDiscriminator
      emptyMetrics (by decide)⟩

/-! ## Red-flag incident previews (`src/tasks/mod.rs`)

Strings are modelled as `List Char`, matching Rust's `chars()` view used by
`preview_sample` (`trim` / `chars().count()` / `chars().take(..)`). -/

set_option maxRecDepth 4096

inductive StepStatus
  | pending
  | running
  | waitingOnInput
  | completed
  | failed
deriving DecidableEq

structure WorkflowStep where
  id : Nat
  description : List Char
  parent : Option Nat
  depth : Nat
  status : StepStatus
  children : List Nat
  candidate_solutions : List (List Char)
  winning_solution : Option (List Char)
deriving DecidableEq

/-- `WorkflowStep::new`: fresh step, `Pending`, no children or solutions. -/
def WorkflowStep.new (id : Nat) (description : List Char)
    (parent : Option Nat) (depth : Nat) : WorkflowStep :=
  { id := id, description := description, parent := parent, depth := depth,
    status := StepStatus.pending, children := [], candidate_solutions := [],
    winning_solution := none }

structure StepTreeContext where
  steps : List WorkflowStep
  next_step_id : Nat
deriving DecidableEq

def emptyTree : StepTreeContext := { steps := [], next_step_id := 0 }

/-- `Context::create_step`: assign the next id, append the step. -/
def create_step (ctx : StepTreeContext) (description : List Char)
    (parent : Option Nat) (depth : Nat) : StepTreeContext × Nat :=
  let id := ctx.next_step_id
  ({ steps := ctx.steps ++ [WorkflowStep.new id description parent depth],
     next_step_id := id + 1 }, id)

/-- The `iter_mut().find(..)` update of the source: push `child` onto the
children of the first step whose id is `parent` (no-op when none is). -/
def push_child : List WorkflowStep → Nat → Nat → List WorkflowStep
  | [], _, _ => []
  | s :: rest, parent, child =>
      if s.id = parent then
        { s with children := s.children ++ [child] } :: rest
      else s :: push_child rest parent child

/-- `Context::add_child_step` from `src/context.rs`: derive the depth from
the parent when it exists (0 otherwise), create the step, then append the
new id to the first step matching `parent` — the new step included, since
the source pushes it before running `iter_mut().find(..)`. -/
def add_child_step (ctx : StepTreeContext) (parent : Nat)
    (description : List Char) : StepTreeContext × Nat :=
  let depth :=
    match ctx.steps.find? (fun s => s.id = parent) with
    | some s => s.depth + 1
    | none => 0
  let created := create_step ctx description (some parent) depth
  ({ created.1 with steps := push_child created.1.steps parent created.2 },
    created.2)

theorem push_child_length (l : List WorkflowStep) (parent child : Nat) :
    (push_child l parent child).length = l.length := by
  induction l with
  | nil => rfl
  | cons s rest ih =>
      rw [push_child]
      by_cases h : s.id = parent
      · simp [h]
      · simp [h, ih]

theorem push_child_no_match {l : List WorkflowStep} {parent : Nat}
    (h : ∀ t ∈ l, ¬(t.id = parent)) (child : Nat) :
    push_child l parent child = l := by
  induction l with
  | nil => rfl
  | cons s rest ih =>
      rw [push_child, if_neg (h s (List.mem_cons_self _ _))]
      rw [ih fun t ht => h t (List.mem_cons_of_mem _ ht)]

theorem push_child_split {as bs : List WorkflowStep} {s : WorkflowStep}
    {parent : Nat} (has : ∀ t ∈ as, ¬(t.id = parent)) (hs : s.id = parent)
    (child : Nat) :
    push_child (as ++ s :: bs) parent child =
      as ++ ({ s with children := s.children ++ [child] }) :: bs := by
  induction as with
  | nil => simp [push_child, hs]
  | cons a rest ih =>
      rw [List.cons_append, push_child,
        if_neg (has a (List.mem_cons_self _ _)), List.cons_append,
        ih fun t ht => has t (List.mem_cons_of_mem _ ht)]

/-- C7 counterexample: on an empty context, `add_child_step 5` has an
unknown parent yet does not fail — it appends a fresh step (depth 0,
dangling parent reference) and returns id 0. -/
theorem C7_unknown_parent_still_appends_counterexample :
    emptyTree.steps.find? (fun s => s.id = 5) = none
    ∧ (add_child_step emptyTree 5 ['x']).1.steps.length = 1
    ∧ (add_child_step emptyTree 5 ['x']).2 = 0 := by decide

/-- C7 amended: `add_child_step(parent_id, description)` never fails.  It
always appends exactly one new step and returns the fresh id.  When
`parent_id` names an existing step, the first such step's `children` gains
the new id and the new step's depth is the parent's depth plus one.  When
`parent_id` is unknown (and differs from the fresh id), the existing steps
are untouched and the new step is appended with depth 0 and a dangling
parent reference. -/
theorem C7_add_child_step_total (ctx : StepTreeContext) (parent : Nat)
    (d : List Char) :
    (add_child_step ctx parent d).1.steps.length = ctx.steps.length + 1
    ∧ (add_child_step ctx parent d).2 = ctx.next_step_id
    ∧ (ctx.steps.find? (fun s => s.id = parent) = none →
        parent ≠ ctx.next_step_id →
        (add_child_step ctx parent d).1.steps =
          ctx.steps ++ [WorkflowStep.new ctx.next_step_id d (some parent) 0])
    ∧ (∀ s, ctx.steps.find? (fun t => t.id = parent) = some s →
        ∃ as bs, ctx.steps = as ++ s :: bs
          ∧ (∀ t ∈ as, ¬(t.id = parent))
          ∧ (add_child_step ctx parent d).1.steps =
              as ++ ({ s with children := s.children ++ [ctx.next_step_id] })
                :: bs
                ++ [WorkflowStep.new ctx.next_step_id d (some parent)
                      (s.depth + 1)]) := by
  refine ⟨?_, rfl, ?_, ?_⟩
  · rw [add_child_step]
    simp [push_child_length, create_step]
  · intro hnone hne
    rw [add_child_step, hnone]
    have hall : ∀ t ∈ ctx.steps, ¬(t.id = parent) := by
      intro t ht
      have := List.find?_eq_none.mp hnone t ht
      simpa using this
    have hnew : ∀ t ∈ ctx.steps ++
        [WorkflowStep.new ctx.next_step_id d (some parent) 0],
        ¬(t.id = parent) := by
      intro t ht
      rcases List.mem_append.mp ht with h | h
      · exact hall t h
      · rcases List.mem_singleton.mp h with rfl
        simpa [WorkflowStep.new] using fun he => hne he.symm
    simp only [create_step]
    exact push_child_no_match hnew _
  · intro s hs
    obtain ⟨as, bs, hsplit, has, hps⟩ := find?_split hs
    have has' : ∀ t ∈ as, ¬(t.id = parent) := by
      intro t ht
      have := has t ht
      simpa using this
    have hps' : s.id = parent := by simpa using hps
    refine ⟨as, bs, hsplit, has', ?_⟩
    rw [add_child_step, hs]
    simp only [create_step]
    rw [hsplit, List.append_assoc, List.cons_append]
    rw [push_child_split has' hps' _]
    simp

theorem C7_add_child_step_total_witness :
    (add_child_step emptyTree 5 ['x']).1.steps.length
        = emptyTree.steps.length + 1
    ∧ (add_child_step emptyTree 5 ['x']).2 = emptyTree.next_step_id
    ∧ (emptyTree.steps.find? (fun s => s.id = 5) = none →
        5 ≠ emptyTree.next_step_id →
        (add_child_step emptyTree 5 ['x']).1.steps =
          emptyTree.steps ++ [WorkflowStep.new emptyTree.next_step_id ['x']
            (some 5) 0])
    ∧ (∀ s, emptyTree.steps.find? (fun t => t.id = 5) = some s →
        ∃ as bs, emptyTree.steps = as ++ s :: bs
          ∧ (∀ t ∈ as, ¬(t.id = 5))
          ∧ (add_child_step emptyTree 5 ['x']).1.steps =
              as ++ ({ s with children := s.children ++ [emptyTree.next_step_id] })
                :: bs
                ++ [WorkflowStep.new emptyTree.next_step_id ['x'] (some 5)
                      (s.depth + 1)]) :=
  C7_add_child_step_total emptyTree 5 ['x']

/-! ## Target-path validation (`src/tasks/mod.rs`)

`validate_target_path` works on the raw string and on `Path::components()`.
On Unix a relative path's components are the slash-separated segments with
empty segments and `.` segments dropped (`.` yields `CurDir`, which the
source's `match` ignores); `..` yields `ParentDir` and anything else
`Normal`.  Strings are `List Char`. -/

/-- Split a character list on `/`. -/
def splitSlashGo (cur : List Char) : List Char → List (List Char)
  | [] => [cur.reverse]
  | c :: cs =>
      if c = '/' then cur.reverse :: splitSlashGo [] cs
      else splitSlashGo (c :: cur) cs

def splitSlash (raw : List Char) : List (List Char) := splitSlashGo [] raw

/-- The `Normal`/`ParentDir` components of a relative path: slash-separated
segments that are neither empty nor `.`. -/
def pathSegments (raw : List Char) : List (List Char) :=
  (splitSlash raw).filter fun s => !(s == []) && !(s == ['.'])

/-- `Path::is_absolute` on Unix: the path begins with `/`. -/
def isAbsolutePath : List Char → Bool
  | '/' :: _ => true
  | _ => false

/-- Does `pat` occur as a prefix of `s`? -/
def startsWithChars : List Char → List Char → Bool
  | [], _ => true
  | _ :: _, [] => false
  | p :: ps, c :: cs => p == c && startsWithChars ps cs

/-- Does `pat` occur as a contiguous substring of `s`? -/
def containsChars (pat : List Char) : List Char → Bool
  | [] => startsWithChars pat []
  | c :: cs => startsWithChars pat (c :: cs) || containsChars pat cs

def dotDotSeg : List Char := ['.', '.']

def dotGitSeg : List Char := ['.', 'g', 'i', 't']

def dotGitSlash : List Char := ['.', 'g', 'i', 't', '/']

def slashDotGitSlash : List Char := ['/', '.', 'g', 'i', 't', '/']

/-- `validate_target_path` from `src/tasks/mod.rs` as an acceptance test:
reject absolute paths, any `..` or `.git` component, and — "to be safe" —
the raw substring `/.git/`, a `.git/` prefix, or the exact string `.git`. -/
def validate_target_path (raw : List Char) : Bool :=
  !(isAbsolutePath raw)
  && !((pathSegments raw).any fun s => s == dotDotSeg || s == dotGitSeg)
  && !(containsChars slashDotGitSlash raw)
  && !(startsWithChars dotGitSlash raw)
  && !(raw == dotGitSeg)

/-- The spec's safety contract (§6) word for word: reject absolute paths,
any component equal to `..`, any component equal to `.git`, and the raw
substring `/.git/`; accept everything else. -/
def spec_path_accepts (raw : List Char) : Bool :=
  !(isAbsolutePath raw)
  && !((pathSegments raw).any fun s => s == dotDotSeg)
  && !((pathSegments raw).any fun s => s == dotGitSeg)
  && !(containsChars slashDotGitSlash raw)

/-- A path starting with `.git/` splits into `.git` followed by the
remainder's segments. -/
theorem splitSlash_dotGitSlash (rest : List Char) :
    splitSlash (dotGitSlash ++ rest) = dotGitSeg :: splitSlash rest := by
  show splitSlashGo [] ('.' :: 'g' :: 'i' :: 't' :: '/' :: rest)
      = dotGitSeg :: splitSlashGo [] rest
  rw [splitSlashGo, if_neg (by decide)]
  rw [splitSlashGo, if_neg (by decide)]
  rw [splitSlashGo, if_neg (by decide)]
  rw [splitSlashGo, if_neg (by decide)]
  rw [splitSlashGo, if_pos rfl]
  rfl

/-- A `true` result of `startsWithChars` exposes the prefix decomposition. -/
theorem startsWithChars_split {pat s : List Char}
    (h : startsWithChars pat s = true) : ∃ rest, s = pat ++ rest := by
  induction pat generalizing s with
  | nil => exact ⟨s, rfl⟩
  | cons p ps ih =>
      cases s with
      | nil => simp [startsWithChars] at h
      | cons c cs =>
          rw [startsWithChars, Bool.and_eq_true] at h
          obtain ⟨hpc, hrest⟩ := h
          obtain ⟨rest, rfl⟩ := ih hrest
          exact ⟨rest, by simp [beq_iff_eq.mp hpc]⟩

/-- Any path that is exactly `.git` or starts with `.git/` has a `.git`
component. -/
theorem dotGit_component_of_extra {raw : List Char}
    (h : startsWithChars dotGitSlash raw = true ∨ raw = dotGitSeg) :
    dotGitSeg ∈ pathSegments raw := by
  rcases h with h | rfl
  · obtain ⟨rest, rfl⟩ := startsWithChars_split h
    rw [pathSegments, splitSlash_dotGitSlash, List.filter_cons]
    rw [if_pos (by decide)]
    exact List.mem_cons_self _ _
  · decide

/-- C8: the path validation accepts exactly the paths the spec's safety
contract accepts — it rejects absolute paths, `..` components, `.git`
components and the raw substring `/.git/`, and accepts every other path;
the source's two extra string checks (`.git/` prefix, exact `.git`) are
subsumed by the `.git` component check. -/
theorem C8_validate_target_path_matches_spec (raw : List Char) :
    validate_target_path raw = spec_path_accepts raw := by
  rw [Bool.eq_iff_iff]
  constructor
  · intro h
    rw [validate_target_path] at h
    simp only [Bool.and_eq_true, Bool.not_eq_true'] at h
    obtain ⟨⟨⟨⟨habs, hseg⟩, hcontains⟩, hpre⟩, heqr⟩ := h
    rw [spec_path_accepts]
    simp only [Bool.and_eq_true, Bool.not_eq_true']
    refine ⟨⟨⟨habs, ?_⟩, ?_⟩, hcontains⟩
    · rw [← Bool.not_eq_true, List.any_eq_true]
      rintro ⟨s, hsmem, hs⟩
      have hany : ((pathSegments raw).any fun t =>
          t == dotDotSeg || t == dotGitSeg) = true :=
        List.any_eq_true.mpr ⟨s, hsmem, by simp [hs]⟩
      rw [hany] at hseg
      cases hseg
    · rw [← Bool.not_eq_true, List.any_eq_true]
      rintro ⟨s, hsmem, hs⟩
      have hany : ((pathSegments raw).any fun t =>
          t == dotDotSeg || t == dotGitSeg) = true :=
        List.any_eq_true.mpr ⟨s, hsmem, by simp [hs]⟩
      rw [hany] at hseg
      cases hseg
  · intro h
    rw [spec_path_accepts] at h
    simp only [Bool.and_eq_true, Bool.not_eq_true'] at h
    obtain ⟨⟨⟨habs, hdd⟩, hdg⟩, hcontains⟩ := h
    rw [validate_target_path]
    simp only [Bool.and_eq_true, Bool.not_eq_true']
    refine ⟨⟨⟨⟨habs, ?_⟩, hcontains⟩, ?_⟩, ?_⟩
    · rw [← Bool.not_eq_true, List.any_eq_true]
      rintro ⟨s, hsmem, hs⟩
      rcases (by simpa using hs :
          (s == dotDotSeg) = true ∨ (s == dotGitSeg) = true) with h1 | h1
      · have : ((pathSegments raw).any fun t => t == dotDotSeg) = true :=
          List.any_eq_true.mpr ⟨s, hsmem, h1⟩
        rw [this] at hdd
        cases hdd
      · have : ((pathSegments raw).any fun t => t == dotGitSeg) = true :=
          List.any_eq_true.mpr ⟨s, hsmem, h1⟩
        rw [this] at hdg
        cases hdg
    · rw [← Bool.not_eq_true]
      intro hsw
      have hmem := dotGit_component_of_extra (Or.inl hsw)
      have : ((pathSegments raw).any fun t => t == dotGitSeg) = true :=
        List.any_eq_true.mpr ⟨dotGitSeg, hmem, beq_iff_eq.mpr rfl⟩
      rw [this] at hdg
      cases hdg
    · rw [← Bool.not_eq_true]
      intro hraw
      have hmem := dotGit_component_of_extra (Or.inr (beq_iff_eq.mp hraw))
      have : ((pathSegments raw).any fun t => t == dotGitSeg) = true :=
        List.any_eq_true.mpr ⟨dotGitSeg, hmem, beq_iff_eq.mpr rfl⟩
      rw [this] at hdg
      cases hdg

/-! ## Sample collection (`SampleCollector` in `src/tasks/mod.rs`)

The LLM is modelled as a stream of responses `stream : Nat → String`: every
`sample_n(prompt, n, ..)` implementation in the repository issues exactly
`n` single-sample requests (or `n` joined parallel calls) and returns
exactly `n` strings on success, so a successful batch of size `remaining`
is the next `remaining` stream elements.  LLM transport failures abort
`collect` by `?`-propagation before any of the logic below runs and are
outside this model.  The red-flag pipeline is the predicate `flagged`
(`true` iff `pipeline.evaluate` returns at least one match); batch order
of accepted samples is irrelevant to the claim and kept as stream order.

The loop variable `fuel` is `max_attempts - attempts`; the source errors
when, after a short batch, `attempts ≥ max_attempts`, i.e. `fuel ≤ 1`. -/

inductive CollectError
  | budgetExhausted
deriving DecidableEq

def collectGo (flagged : String → Bool) (stream : Nat → String)
    (target fuel pos : Nat) (accepted : List String) :
    Except CollectError (List String) :=
  if target ≤ accepted.length then Except.ok accepted
  else
    let remaining := target - accepted.length
    let batch := (List.range remaining).map fun i => stream (pos + i)
    let acc1 := accepted ++ batch.filter fun s => !(flagged s)
    if target ≤ acc1.length then Except.ok acc1
    else if _hfuel : fuel ≤ 1 then Except.error CollectError.budgetExhausted
    else collectGo flagged stream target (fuel - 1) (pos + remaining) acc1
termination_by fuel
decreasing_by omega

/-- `SampleCollector::collect_inner`: empty target short-circuits; an empty
pipeline takes one unfiltered batch; otherwise run the bounded resample
loop with budget `max(target, 1) * 4`. -/
def collect_inner (pipelineEmpty : Bool) (flagged : String → Bool)
    (stream : Nat → String) (target : Nat) :
    Except CollectError (List String) :=
  if target = 0 then Except.ok []
  else if pipelineEmpty then
    Except.ok ((List.range target).map fun i => stream i)
  else collectGo flagged stream target (max target 1 * 4) 0 []

/-- Each pass of the resample loop either completes with exactly `target`
clean samples or exhausts the budget. -/
theorem collectGo_spec (flagged : String → Bool) (stream : Nat → String)
    (target : Nat) :
    ∀ (fuel pos : Nat) (accepted : List String),
      accepted.length ≤ target →
      (∀ s ∈ accepted, flagged s = false) →
      (∃ l, collectGo flagged stream target fuel pos accepted = Except.ok l
          ∧ l.length = target ∧ ∀ s ∈ l, flagged s = false)
      ∨ collectGo flagged stream target fuel pos accepted
          = Except.error CollectError.budgetExhausted := by
  intro fuel
  induction fuel using Nat.strong_induction_on with
  | _ fuel ih =>
      intro pos accepted hlen hclean
      rw [collectGo]
      by_cases h0 : target ≤ accepted.length
      · exact Or.inl ⟨accepted, by rw [if_pos h0], le_antisymm hlen h0, hclean⟩
      · simp only [if_neg h0]
        have hfle : (((List.range (target - accepted.length)).map
            fun i => stream (pos + i)).filter
              fun s => !(flagged s)).length ≤ target - accepted.length := by
          calc (((List.range (target - accepted.length)).map
                fun i => stream (pos + i)).filter
                  fun s => !(flagged s)).length
              ≤ (((List.range (target - accepted.length)).map
                fun i => stream (pos + i))).length := List.length_filter_le _ _
            _ = target - accepted.length := by simp
        have hclean1 : ∀ s ∈ accepted ++
            (((List.range (target - accepted.length)).map
              fun i => stream (pos + i)).filter fun s => !(flagged s)),
            flagged s = false := by
          intro s hs
          rcases List.mem_append.mp hs with h | h
          · exact hclean s h
          · have := (List.mem_filter.mp h).2
            revert this
            cases flagged s <;> simp
        by_cases h1 : target ≤ (accepted ++
            (((List.range (target - accepted.length)).map
              fun i => stream (pos + i)).filter fun s => !(flagged s))).length
        · refine Or.inl ⟨_, by rw [if_pos h1], ?_, hclean1⟩
          rw [List.length_append] at h1 ⊢
          omega
        · rw [if_neg h1]
          by_cases hfuel : fuel ≤ 1
          · rw [dif_pos hfuel]
            exact Or.inr rfl
          · rw [dif_neg hfuel]
            refine ih (fuel - 1) (by omega) (pos + (target - accepted.length))
              _ ?_ hclean1
            rw [not_le] at h0
            rw [List.length_append]
            omega

/-- C4: for every target `N ≥ 1` and a non-empty red-flag pipeline,
`collect` either returns exactly `N` strings, each of which produced no
red-flag match, or fails with the budget-exhaustion (`System`) error after
`max(N, 1) * 4` attempts while fewer than `N` samples were accepted. -/
theorem C4_collect_exactly_n_or_budget_error (flagged : String → Bool)
    (stream : Nat → String) (N : Nat) (hN : 1 ≤ N) :
    (∃ l, collect_inner false flagged stream N = Except.ok l
        ∧ l.length = N ∧ ∀ s ∈ l, flagged s = false)
    ∨ collect_inner false flagged stream N
        = Except.error CollectError.budgetExhausted := by
  have hN0 : N ≠ 0 := by omega
  rw [collect_inner, if_neg hN0]
  simp only [Bool.false_eq_true, if_false]
  exact collectGo_spec flagged stream N (max N 1 * 4) 0 []
    (by simp) (by simp)

theorem C4_collect_exactly_n_or_budget_error_witness :
    1 ≤ 2
    ∧ ((∃ l, collect_inner false (fun _ => false) (fun _ => "s") 2
          = Except.ok l
          ∧ l.length = 2 ∧ ∀ s ∈ l, (fun _ => false) s = false)
      ∨ collect_inner false (fun _ => false) (fun _ => "s") 2
          = Except.error CollectError.budgetExhausted) :=
  ⟨by decide,
    C4_collect_exactly_n_or_budget_error (fun _ => false) (fun _ => "s") 2
      (by decide)⟩

/-! ## Resume paths (`src/application/service.rs`, `src/server.rs`)

`AppService::resume_session` is a pipeline of fallible collaborator calls
(store load, config load, domain check, LLM client construction, saves,
runner execution); each collaborator's outcome is an oracle input here and
its error is mapped to the source's error constructor.  The decisive fact
is structural: the function never branches on the loaded record's
persisted status.  `ServeState::resume_session` (the HTTP surface) is the
only place that checks the status, and it rejects with a generic
formatted message (`anyhow!`), not `Error::InvalidState`; the message
string is abstracted to a fixed marker here, its formatting being
irrelevant to the claim. -/

inductive SessionStatus
  | running
  | paused
  | completed
  | failed
deriving DecidableEq

inductive CoreError
  | invalidState (msg : String)
  | config (msg : String)
  | persistence (msg : String)
  | templateRendering (msg : String)
  | fileSystem (msg : String)
  | system (msg : String)
deriving DecidableEq

inductive RunnerOutcomeKind
  | completedRun
  | pausedRun
deriving DecidableEq

structure SessionOutcome where
  completed : Bool
  paused : Bool
deriving DecidableEq

/-- The loaded session record, reduced to what the resume paths consult. -/
structure SessionRecord where
  status : SessionStatus
deriving DecidableEq

/-- Oracle outcomes of the collaborators `AppService::resume_session`
calls, in call order. -/
structure ResumeEnv where
  loadResult : Except String SessionRecord
  configResult : Except String Unit
  domainResult : Except String Unit
  llmResult : Except String Unit
  saveRunningResult : Except String Unit
  runResult : Except String RunnerOutcomeKind
  saveFinalResult : Except String Unit

/-- `AppService::resume_session`: load, reload config, check the domain,
build the LLM client, save as `Running`, execute, save the terminal
status.  The loaded record's `status` field is never consulted. -/
def app_resume_session (env : ResumeEnv) : Except CoreError SessionOutcome :=
  match env.loadResult with
  | Except.error e => Except.error (CoreError.persistence e)
  | Except.ok _record =>
      match env.configResult with
      | Except.error e => Except.error (CoreError.config e)
      | Except.ok _ =>
          match env.domainResult with
          | Except.error e => Except.error (CoreError.config e)
          | Except.ok _ =>
              match env.llmResult with
              | Except.error e => Except.error (CoreError.system e)
              | Except.ok _ =>
                  match env.saveRunningResult with
                  | Except.error e => Except.error (CoreError.persistence e)
                  | Except.ok _ =>
                      match env.runResult with
                      | Except.ok RunnerOutcomeKind.completedRun =>
                          match env.saveFinalResult with
                          | Except.error e =>
                              Except.error (CoreError.persistence e)
                          | Except.ok _ =>
                              Except.ok { completed := true, paused := false }
                      | Except.ok RunnerOutcomeKind.pausedRun =>
                          match env.saveFinalResult with
                          | Except.error e =>
                              Except.error (CoreError.persistence e)
                          | Except.ok _ =>
                              Except.ok { completed := false, paused := true }
                      | Except.error e =>
                          match env.saveFinalResult with
                          | Except.error e2 =>
                              Except.error (CoreError.persistence e2)
                          | Except.ok _ =>
                              Except.error (CoreError.system e)

/-- Replace the status of the record a resume environment loads. -/
def ResumeEnv.withStatus (env : ResumeEnv) (s : SessionStatus) : ResumeEnv :=
  { env with
    loadResult :=
      match env.loadResult with
      | Except.ok _ => Except.ok { status := s }
      | Except.error e => Except.error e }

/-- The status gate of `ServeState::resume_session`. -/
def serve_resume_allowed (s : SessionStatus) : Bool :=
  match s with
  | SessionStatus.paused => true
  | SessionStatus.failed => true
  | _ => false

/-- `store.load` outcome as seen by `ServeState::resume_session`. -/
inductive ServeLoad
  | found (r : SessionRecord)
  | notFound
  | loadError (msg : String)

/-- The serve-side resume error: a generic message, never a `CoreError`. -/
inductive ServeError
  | message (msg : String)
  | spawnFailed
deriving DecidableEq

/-- `ServeState::resume_session` from `src/server.rs`: missing session
gives `Ok(false)`; a status other than `Paused` or `Failed` gives a
generic error; otherwise the resume process is spawned. -/
def serve_resume_session (load : ServeLoad) (spawnOk : Bool) :
    Except ServeError Bool :=
  match load with
  | ServeLoad.notFound => Except.ok false
  | ServeLoad.loadError e => Except.error (ServeError.message e)
  | ServeLoad.found r =>
      if serve_resume_allowed r.status then
        if spawnOk then Except.ok true else Except.error ServeError.spawnFailed
      else Except.error (ServeError.message "session is not paused or failed")

/-- An environment in which every collaborator succeeds and the loaded
record carries status `Completed`. -/
def completedResumeEnv : ResumeEnv :=
  { loadResult := Except.ok { status := SessionStatus.completed }
    configResult := Except.ok ()
    domainResult := Except.ok ()
    llmResult := Except.ok ()
    saveRunningResult := Except.ok ()
    runResult := Except.ok RunnerOutcomeKind.completedRun
    saveFinalResult := Except.ok () }

/-- C5 counterexample: resuming a session persisted as `Completed` through
`AppService::resume_session` succeeds — no `InvalidState` (nor any other)
error is produced, contradicting the claim that any status other than
`Paused`/`Failed` yields `InvalidState`. -/
theorem C5_resume_completed_succeeds_counterexample :
    completedResumeEnv.loadResult
        = Except.ok { status := SessionStatus.completed }
    ∧ app_resume_session completedResumeEnv
        = Except.ok { completed := true, paused := false } := by
  exact ⟨rfl, rfl⟩

/-- C5 amended: `AppService::resume_session` performs no status check at
all — its outcome is independent of the persisted status.  Only the serve
endpoint's `ServeState::resume_session` requires the previous status to be
`Paused` or `Failed`, and it rejects other statuses with a generic
formatted error, not `InvalidState`. -/
theorem C5_resume_status_gate (env : ResumeEnv) (s1 s2 : SessionStatus)
    (r : SessionRecord) (spawnOk : Bool) :
    app_resume_session (env.withStatus s1)
        = app_resume_session (env.withStatus s2)
    ∧ (serve_resume_allowed r.status = true
        ↔ (r.status = SessionStatus.paused ∨ r.status = SessionStatus.failed))
    ∧ (serve_resume_allowed r.status = false →
        serve_resume_session (ServeLoad.found r) spawnOk
          = Except.error (ServeError.message "session is not paused or failed")) := by
  refine ⟨?_, ?_, ?_⟩
  · cases h : env.loadResult with
    | ok rec0 =>
        have h1 : (env.withStatus s1).loadResult
            = Except.ok { status := s1 } := by
          simp [ResumeEnv.withStatus, h]
        have h2 : (env.withStatus s2).loadResult
            = Except.ok { status := s2 } := by
          simp [ResumeEnv.withStatus, h]
        rw [app_resume_session, app_resume_session, h1, h2]
        rfl
    | error e =>
        have h1 : (env.withStatus s1).loadResult = Except.error e := by
          simp [ResumeEnv.withStatus, h]
        have h2 : (env.withStatus s2).loadResult = Except.error e := by
          simp [ResumeEnv.withStatus, h]
        rw [app_resume_session, app_resume_session, h1, h2]
  · cases h : r.status <;> simp [serve_resume_allowed, h]
  · intro hgate
    rw [serve_resume_session, hgate]
    rfl

theorem C5_resume_status_gate_witness :
    app_resume_session (completedResumeEnv.withStatus SessionStatus.completed)
        = app_resume_session (completedResumeEnv.withStatus SessionStatus.running)
    ∧ (serve_resume_allowed SessionStatus.completed = true
        ↔ (SessionStatus.completed = SessionStatus.paused
            ∨ SessionStatus.completed = SessionStatus.failed))
    ∧ (serve_resume_allowed SessionStatus.completed = false →
        serve_resume_session (ServeLoad.found { status := SessionStatus.completed })
            true
          = Except.error (ServeError.message "session is not paused or failed")) :=
  C5_resume_status_gate completedResumeEnv SessionStatus.completed
    SessionStatus.running { status := SessionStatus.completed } true

/-! ## The scheduler loop (`FlowRunner::execute` in `src/runner.rs`)

Each iteration dequeues one work item, runs the matching task and routes
follow-ups.  Task behaviour (LLM-dependent) is an oracle `ScriptEntry` per
iteration: the returned action and effect, whether the task (or the
red-flag pipeline construction) failed, the sampling/vote trigger results
(`check_sampling_triggers` / `check_vote_triggers` return `Some` with the
branch's own `step_id` and formatted strings; only the strings are
oracles), the recursion decision per child, and whether the completed step
exists in the tree.  The queue and wait state are the `Context` fields the
loop manipulates; `set_wait_state`'s step-status write is outside this
fragment.  `GoTo`/`Error` actions panic in the source and are `panicked`
here.  A `RunnerScript` shorter than the run is reported as `outOfScript`
(never happens in the theorems below at paused/completed results). -/

inductive WorkItem
  | decomposition (step_id : Nat)
  | decompositionVote (step_id : Nat)
  | solve (step_id : Nat)
  | solutionVote (step_id : Nat)
  | applyVerify (step_id : Nat)
deriving DecidableEq

def WorkItem.stepId : WorkItem → Nat
  | WorkItem.decomposition s => s
  | WorkItem.decompositionVote s => s
  | WorkItem.solve s => s
  | WorkItem.solutionVote s => s
  | WorkItem.applyVerify s => s

structure WaitState where
  step_id : Nat
  trigger : String
  details : String
deriving DecidableEq

inductive NextAction
  | cont
  | waitForInput
  | goTo (step : Nat)
  | endRun
  | errorMsg (msg : String)
deriving DecidableEq

inductive TaskEffect
  | noEffect
  | spawnedSteps (children : List Nat)
  | solutionsReady (step_id : Nat)
  | winnerSelected (step_id : Nat)
  | stepCompleted (step_id : Nat)
deriving DecidableEq

structure ScriptEntry where
  taskFails : Bool := false
  action : NextAction := NextAction.cont
  effect : TaskEffect := TaskEffect.noEffect
  samplingTrigger : Option (String × String) := none
  voteTrigger : Option (String × String) := none
  recurse : Nat → Bool := fun _ => false
  stepExists : Bool := true

structure RunState where
  work_queue : List WorkItem
  wait_state : Option WaitState
deriving DecidableEq

inductive ExecResult
  | completed
  | paused (w : WaitState)
  | failed
  | panicked
  | outOfScript
deriving DecidableEq

/-- `FlowRunner::pause_with`: front-push the retry item, record the wait
state, return `Paused` carrying it. -/
def pause_with (st : RunState) (w : WaitState) (retry : WorkItem) :
    RunState × ExecResult :=
  ({ work_queue := retry :: st.work_queue, wait_state := some w },
    ExecResult.paused w)

/-- A `return Ok(self.pause_with(..))` site inside the loop body: the
pause result as an early-return value. -/
def pause_step (st : RunState) (w : WaitState) (retry : WorkItem) :
    RunState × Option ExecResult :=
  ((pause_with st w retry).1, some (pause_with st w retry).2)

theorem pause_step_eq (st : RunState) (w : WaitState) (retry : WorkItem) :
    pause_step st w retry =
      ({ work_queue := retry :: st.work_queue, wait_state := some w },
        some (ExecResult.paused w)) := rfl

/-- Modelled from the spec: `Context::set_checkpoint` is called by
`FlowRunner::execute` for step-by-step checkpoints but is absent from the
sources (only its call sites exist).  Per the spec (§4.5: after the
checkpoint the runner pauses with trigger `step_by_step_checkpoint`; §9:
"pausing is modelled as a normal return"), it records the wait state and
does not touch the work queue. -/
def set_checkpoint (st : RunState) (w : WaitState) : RunState :=
  { st with wait_state := some w }

/-- `FlowRunner::handle_next_action`: `Continue`/`End` keep going,
`WaitForInput` pauses with the current item re-queued at the front,
`GoTo`/`Error` panic. -/
def handle_next_action (action : NextAction) (current : WorkItem)
    (st : RunState) : Option (RunState × ExecResult) :=
  match action with
  | NextAction.cont => none
  | NextAction.endRun => none
  | NextAction.waitForInput =>
      some (pause_with st
        { step_id := current.stepId, trigger := "task_requested_input",
          details := "Task requested human approval before continuing" }
        current)
  | NextAction.goTo _ => some (st, ExecResult.panicked)
  | NextAction.errorMsg _ => some (st, ExecResult.panicked)

/-- One iteration of the `while let Some(item) = context.dequeue_work()`
loop body, after the dequeue: `st` is the context with `item` already
popped.  Returns the new state and `some result` for an early `return`,
`none` to keep looping. -/
def execStep (stepByStep : Bool) (entry : ScriptEntry) (item : WorkItem)
    (st : RunState) : RunState × Option ExecResult :=
  match item with
  | WorkItem.decomposition sid =>
      if entry.taskFails then (st, some ExecResult.failed)
      else
        match handle_next_action entry.action item st with
        | some (st2, r) => (st2, some r)
        | none =>
            match entry.samplingTrigger with
            | some (t, d) =>
                pause_step st { step_id := sid, trigger := t, details := d }
                  item
            | none =>
                ({ st with work_queue :=
                    WorkItem.decompositionVote sid :: st.work_queue }, none)
  | WorkItem.decompositionVote sid =>
      if entry.taskFails then (st, some ExecResult.failed)
      else
        match handle_next_action entry.action item st with
        | some (st2, r) => (st2, some r)
        | none =>
            match entry.voteTrigger with
            | some (t, d) =>
                pause_step st { step_id := sid, trigger := t, details := d }
                  (WorkItem.decomposition sid)
            | none =>
                let st2 :=
                  match entry.effect with
                  | TaskEffect.spawnedSteps children =>
                      if children.isEmpty then
                        { st with work_queue :=
                            st.work_queue ++ [WorkItem.solve sid] }
                      else
                        { st with work_queue := st.work_queue ++
                            children.map fun child =>
                              if entry.recurse child then
                                WorkItem.decomposition child
                              else WorkItem.solve child }
                  | _ => st
                if stepByStep then
                  let w : WaitState :=
                    { step_id := sid, trigger := "step_by_step_checkpoint",
                      details := "Decomposition plan ready for review" }
                  (set_checkpoint st2 w, some (ExecResult.paused w))
                else (st2, none)
  | WorkItem.solve sid =>
      if entry.taskFails then (st, some ExecResult.failed)
      else
        match handle_next_action entry.action item st with
        | some (st2, r) => (st2, some r)
        | none =>
            match entry.samplingTrigger with
            | some (t, d) =>
                pause_step st { step_id := sid, trigger := t, details := d }
                  item
            | none =>
                match entry.effect with
                | TaskEffect.solutionsReady _ =>
                    ({ st with work_queue :=
                        WorkItem.solutionVote sid :: st.work_queue }, none)
                | _ => (st, none)
  | WorkItem.solutionVote sid =>
      if entry.taskFails then (st, some ExecResult.failed)
      else
        match handle_next_action entry.action item st with
        | some (st2, r) => (st2, some r)
        | none =>
            match entry.voteTrigger with
            | some (t, d) =>
                pause_step st { step_id := sid, trigger := t, details := d }
                  (WorkItem.solve sid)
            | none =>
                match entry.effect with
                | TaskEffect.winnerSelected esid =>
                    ({ st with work_queue :=
                        WorkItem.applyVerify esid :: st.work_queue }, none)
                | _ => (st, none)
  | WorkItem.applyVerify _sid =>
      if entry.taskFails then (st, some ExecResult.failed)
      else
        match handle_next_action entry.action item st with
        | some (st2, r) => (st2, some r)
        | none =>
            match entry.effect with
            | TaskEffect.stepCompleted esid =>
                if entry.stepExists && stepByStep then
                  let w : WaitState :=
                    { step_id := esid, trigger := "step_by_step_checkpoint",
                      details := "Step finished execution. Resume to process next pending work." }
                  (set_checkpoint st w, some (ExecResult.paused w))
                else (st, none)
            | _ => (st, none)

/-- The scheduler loop: dequeue, run one scripted iteration, stop on an
early result, finish with `Completed` when the queue drains. -/
def executeGo (stepByStep : Bool) :
    List ScriptEntry → RunState → RunState × ExecResult
  | script, st =>
      match st.work_queue with
      | [] => (st, ExecResult.completed)
      | item :: rest =>
          match script with
          | [] => (st, ExecResult.outOfScript)
          | entry :: entries =>
              match execStep stepByStep entry item
                  { st with work_queue := rest } with
              | (st2, some r) => (st2, r)
              | (st2, none) => executeGo stepByStep entries st2

/-- `FlowRunner::execute`: the pre-loop root bootstrap enqueues a
`Decomposition` item for the root at the back when the root is missing or
still pending with an idle queue (`kickstart`), then the loop runs. -/
def flow_execute (stepByStep : Bool) (kickstart : Option Nat)
    (script : List ScriptEntry) (st : RunState) : RunState × ExecResult :=
  let st0 :=
    match kickstart with
    | some root =>
        { st with work_queue :=
            st.work_queue ++ [WorkItem.decomposition root] }
    | none => st
  executeGo stepByStep script st0

/-- The step-by-step checkpoint wait state after `ApplyVerify`. -/
def applyVerifyCheckpoint (sid : Nat) : WaitState :=
  { step_id := sid, trigger := "step_by_step_checkpoint",
    details := "Step finished execution. Resume to process next pending work." }

/-- C3 counterexample: with `step_by_step` on, a run whose single work item
is `ApplyVerify 0` completes the step and pauses at the checkpoint with an
*empty* work queue — there is no first element at all, let alone a retry
item, and a subsequent execute does not restart the paused step. -/
theorem C3_checkpoint_pause_empty_queue_counterexample :
    flow_execute true none
        [{ effect := TaskEffect.stepCompleted 0 }]
        { work_queue := [WorkItem.applyVerify 0], wait_state := none }
      = ({ work_queue := [], wait_state := some (applyVerifyCheckpoint 0) },
          ExecResult.paused (applyVerifyCheckpoint 0)) := by
  rfl

/-- When `handle_next_action` pauses, the current item is back at the front
of the queue and the wait state targets its step. -/
theorem handle_next_action_paused {action : NextAction} {current : WorkItem}
    {st stx : RunState} {w : WaitState}
    (h : handle_next_action action current st = some (stx, ExecResult.paused w)) :
    stx.work_queue = current :: st.work_queue ∧ w.step_id = current.stepId
      ∧ stx.wait_state = some w := by
  cases action with
  | cont => simp [handle_next_action] at h
  | endRun => simp [handle_next_action] at h
  | goTo s => simp [handle_next_action] at h
  | errorMsg m => simp [handle_next_action] at h
  | waitForInput =>
      simp only [handle_next_action, pause_with, Option.some.injEq,
        Prod.mk.injEq, ExecResult.paused.injEq] at h
      obtain ⟨hst, hw⟩ := h
      subst hw
      subst hst
      exact ⟨rfl, rfl, rfl⟩

/-- With `step_by_step` off, every early `Paused` return of the loop body
leaves a retry item for the paused step at the front of the queue and
records the wait state. -/
theorem execStep_paused_front {entry : ScriptEntry} {item : WorkItem}
    {st st2 : RunState} {w : WaitState}
    (h : execStep false entry item st = (st2, some (ExecResult.paused w))) :
    ∃ retry, st2.work_queue = retry :: st.work_queue
      ∧ retry.stepId = w.step_id ∧ st2.wait_state = some w := by
  cases item with
  | decomposition sid =>
      simp only [execStep] at h
      by_cases hf : entry.taskFails
      · rw [if_pos hf] at h
        simp at h
      · rw [if_neg hf] at h
        cases hact : handle_next_action entry.action
            (WorkItem.decomposition sid) st with
        | some pr =>
            obtain ⟨stx, rx⟩ := pr
            rw [hact] at h
            simp only [Prod.mk.injEq, Option.some.injEq] at h
            obtain ⟨hst, hr⟩ := h
            subst hst
            subst hr
            obtain ⟨hq, hsid, hw⟩ := handle_next_action_paused hact
            exact ⟨WorkItem.decomposition sid, hq, hsid.symm, hw⟩
        | none =>
            rw [hact] at h
            cases htr : entry.samplingTrigger with
            | some td =>
                obtain ⟨t, d⟩ := td
                rw [htr] at h
                simp only [pause_step_eq, Prod.mk.injEq, Option.some.injEq,
                  ExecResult.paused.injEq] at h
                obtain ⟨hst, hw⟩ := h
                subst hw
                subst hst
                exact ⟨WorkItem.decomposition sid, rfl, rfl, rfl⟩
            | none =>
                rw [htr] at h
                simp at h
  | decompositionVote sid =>
      simp only [execStep] at h
      by_cases hf : entry.taskFails
      · rw [if_pos hf] at h
        simp at h
      · rw [if_neg hf] at h
        cases hact : handle_next_action entry.action
            (WorkItem.decompositionVote sid) st with
        | some pr =>
            obtain ⟨stx, rx⟩ := pr
            rw [hact] at h
            simp only [Prod.mk.injEq, Option.some.injEq] at h
            obtain ⟨hst, hr⟩ := h
            subst hst
            subst hr
            obtain ⟨hq, hsid, hw⟩ := handle_next_action_paused hact
            exact ⟨WorkItem.decompositionVote sid, hq, hsid.symm, hw⟩
        | none =>
            rw [hact] at h
            cases htr : entry.voteTrigger with
            | some td =>
                obtain ⟨t, d⟩ := td
                rw [htr] at h
                simp only [pause_step_eq, Prod.mk.injEq, Option.some.injEq,
                  ExecResult.paused.injEq] at h
                obtain ⟨hst, hw⟩ := h
                subst hw
                subst hst
                exact ⟨WorkItem.decomposition sid, rfl, rfl, rfl⟩
            | none =>
                rw [htr] at h
                simp at h
  | solve sid =>
      simp only [execStep] at h
      by_cases hf : entry.taskFails
      · rw [if_pos hf] at h
        simp at h
      · rw [if_neg hf] at h
        cases hact : handle_next_action entry.action (WorkItem.solve sid) st with
        | some pr =>
            obtain ⟨stx, rx⟩ := pr
            rw [hact] at h
            simp only [Prod.mk.injEq, Option.some.injEq] at h
            obtain ⟨hst, hr⟩ := h
            subst hst
            subst hr
            obtain ⟨hq, hsid, hw⟩ := handle_next_action_paused hact
            exact ⟨WorkItem.solve sid, hq, hsid.symm, hw⟩
        | none =>
            rw [hact] at h
            cases htr : entry.samplingTrigger with
            | some td =>
                obtain ⟨t, d⟩ := td
                rw [htr] at h
                simp only [pause_step_eq, Prod.mk.injEq, Option.some.injEq,
                  ExecResult.paused.injEq] at h
                obtain ⟨hst, hw⟩ := h
                subst hw
                subst hst
                exact ⟨WorkItem.solve sid, rfl, rfl, rfl⟩
            | none =>
                rw [htr] at h
                cases heff : entry.effect <;> rw [heff] at h <;> simp at h
  | solutionVote sid =>
      simp only [execStep] at h
      by_cases hf : entry.taskFails
      · rw [if_pos hf] at h
        simp at h
      · rw [if_neg hf] at h
        cases hact : handle_next_action entry.action
            (WorkItem.solutionVote sid) st with
        | some pr =>
            obtain ⟨stx, rx⟩ := pr
            rw [hact] at h
            simp only [Prod.mk.injEq, Option.some.injEq] at h
            obtain ⟨hst, hr⟩ := h
            subst hst
            subst hr
            obtain ⟨hq, hsid, hw⟩ := handle_next_action_paused hact
            exact ⟨WorkItem.solutionVote sid, hq, hsid.symm, hw⟩
        | none =>
            rw [hact] at h
            cases htr : entry.voteTrigger with
            | some td =>
                obtain ⟨t, d⟩ := td
                rw [htr] at h
                simp only [pause_step_eq, Prod.mk.injEq, Option.some.injEq,
                  ExecResult.paused.injEq] at h
                obtain ⟨hst, hw⟩ := h
                subst hw
                subst hst
                exact ⟨WorkItem.solve sid, rfl, rfl, rfl⟩
            | none =>
                rw [htr] at h
                cases heff : entry.effect <;> rw [heff] at h <;> simp at h
  | applyVerify sid =>
      simp only [execStep] at h
      by_cases hf : entry.taskFails
      · rw [if_pos hf] at h
        simp at h
      · rw [if_neg hf] at h
        cases hact : handle_next_action entry.action
            (WorkItem.applyVerify sid) st with
        | some pr =>
            obtain ⟨stx, rx⟩ := pr
            rw [hact] at h
            simp only [Prod.mk.injEq, Option.some.injEq] at h
            obtain ⟨hst, hr⟩ := h
            subst hst
            subst hr
            obtain ⟨hq, hsid, hw⟩ := handle_next_action_paused hact
            exact ⟨WorkItem.applyVerify sid, hq, hsid.symm, hw⟩
        | none =>
            rw [hact] at h
            cases heff : entry.effect <;> rw [heff] at h <;> simp at h

/-- Evaluation lemmas for one unfolding of the loop. -/
theorem executeGo_empty_queue (sbs : Bool) (script : List ScriptEntry)
    (ws : Option WaitState) :
    executeGo sbs script { work_queue := [], wait_state := ws }
      = ({ work_queue := [], wait_state := ws }, ExecResult.completed) := by
  rw [executeGo]

theorem executeGo_out_of_script (sbs : Bool) (item : WorkItem)
    (rest : List WorkItem) (ws : Option WaitState) :
    executeGo sbs [] { work_queue := item :: rest, wait_state := ws }
      = ({ work_queue := item :: rest, wait_state := ws },
          ExecResult.outOfScript) := by
  rw [executeGo]

theorem executeGo_cons_continue {sbs : Bool} {entry : ScriptEntry}
    {entries : List ScriptEntry} {item : WorkItem} {rest : List WorkItem}
    {ws : Option WaitState} {stx : RunState}
    (h : execStep sbs entry item { work_queue := rest, wait_state := ws }
      = (stx, none)) :
    executeGo sbs (entry :: entries) { work_queue := item :: rest, wait_state := ws }
      = executeGo sbs entries stx := by
  show (match execStep sbs entry item { work_queue := rest, wait_state := ws } with
    | (st2, some r) => (st2, r)
    | (st2, none) => executeGo sbs entries st2) = executeGo sbs entries stx
  rw [h]

theorem executeGo_cons_stop {sbs : Bool} {entry : ScriptEntry}
    {entries : List ScriptEntry} {item : WorkItem} {rest : List WorkItem}
    {ws : Option WaitState} {stx : RunState} {r : ExecResult}
    (h : execStep sbs entry item { work_queue := rest, wait_state := ws }
      = (stx, some r)) :
    executeGo sbs (entry :: entries) { work_queue := item :: rest, wait_state := ws }
      = (stx, r) := by
  show (match execStep sbs entry item { work_queue := rest, wait_state := ws } with
    | (st2, some r) => (st2, r)
    | (st2, none) => executeGo sbs entries st2) = (stx, r)
  rw [h]

/-- Lifting the per-iteration pause property through the loop. -/
theorem executeGo_paused_front (script : List ScriptEntry) :
    ∀ (st st2 : RunState) (w : WaitState),
      executeGo false script st = (st2, ExecResult.paused w) →
      ∃ retry rest, st2.work_queue = retry :: rest
        ∧ retry.stepId = w.step_id ∧ st2.wait_state = some w := by
  induction script with
  | nil =>
      intro st st2 w h
      obtain ⟨q, ws⟩ := st
      cases q with
      | nil =>
          rw [executeGo_empty_queue] at h
          simp at h
      | cons item rest =>
          rw [executeGo_out_of_script] at h
          simp at h
  | cons entry entries ih =>
      intro st st2 w h
      obtain ⟨q, ws⟩ := st
      cases q with
      | nil =>
          rw [executeGo_empty_queue] at h
          simp at h
      | cons item rest =>
          rcases hex : execStep false entry item
              { work_queue := rest, wait_state := ws } with ⟨stx, _ | r⟩
          · rw [executeGo_cons_continue hex] at h
            exact ih stx st2 w h
          · rw [executeGo_cons_stop hex] at h
            simp only [Prod.mk.injEq] at h
            obtain ⟨hst, hr⟩ := h
            subst hst
            subst hr
            obtain ⟨retry, hq2, hsid, hw⟩ := execStep_paused_front hex
            exact ⟨retry, rest, hq2, hsid, hw⟩

/-- C3 amended: with `step_by_step` off (where every pause goes through
`pause_with`), whenever `FlowRunner::execute` returns `Paused(w)` the work
queue is nonempty and its head is the retry item the runner front-pushed
for the paused step — the dequeued item itself for input-request and
sampling pauses, or the stage's `Decomposition`/`Solve` item for
vote-trigger pauses — so its step id is the paused step's.  Step-by-step
checkpoint pauses push no retry item and can leave the queue empty. -/
theorem C3_pause_retry_front (script : List ScriptEntry) (kick : Option Nat)
    (st st2 : RunState) (w : WaitState)
    (h : flow_execute false kick script st = (st2, ExecResult.paused w)) :
    ∃ retry rest, st2.work_queue = retry :: rest
      ∧ retry.stepId = w.step_id ∧ st2.wait_state = some w := by
  rw [flow_execute.eq_def] at h
  cases kick with
  | none => exact executeGo_paused_front script _ st2 w h
  | some root => exact executeGo_paused_front script _ st2 w h

def c3WitnessScript : List ScriptEntry :=
  [{ samplingTrigger :=
      some ("solver sampling_resamples",
        "3 resample attempts exceeded the allowed budget during solver sampling") }]

def c3WitnessState : RunState :=
  { work_queue := [WorkItem.solve 0], wait_state := none }

def c3WitnessWait : WaitState :=
  { step_id := 0, trigger := "solver sampling_resamples",
    details := "3 resample attempts exceeded the allowed budget during solver sampling" }

def c3WitnessFinal : RunState :=
  { work_queue := [WorkItem.solve 0], wait_state := some c3WitnessWait }

theorem C3_pause_retry_front_witness :
    flow_execute false none c3WitnessScript c3WitnessState
        = (c3WitnessFinal, ExecResult.paused c3WitnessWait)
    ∧ ∃ retry rest, c3WitnessFinal.work_queue = retry :: rest
        ∧ retry.stepId = c3WitnessWait.step_id
        ∧ c3WitnessFinal.wait_state = some c3WitnessWait :=
  ⟨rfl, C3_pause_retry_front c3WitnessScript none c3WitnessState
    c3WitnessFinal c3WitnessWait rfl⟩
